import Mathlib

/-!
Verification of the did:peer:4 codec, DID resolution layer and DIDComm routing
logic of the didcomm-website-demo repository.

The JavaScript/TypeScript sources are shallowly embedded: JS strings become
lists of characters, byte arrays become lists of naturals below 256, JSON
values become an inductive type, and the external library primitives the code
calls (bs58, varint, JSON.stringify/JSON.parse, TextEncoder/TextDecoder,
Buffer base64) are given executable Lean models with proved round-trip
properties.  The SHA-256 digest itself comes from an external crypto library
(noble hashes) and is kept as an explicit function parameter `sha`; the
multihash/multibase framing around it, which is repository code, is embedded
concretely.
-/

namespace DidcommDemo

/-- Strings of the JavaScript sources are modelled as lists of characters. -/
abbrev Str := List Char

/-- Bytes are naturals; boundedness below 256 is carried as hypotheses. -/
abbrev Byte := Nat

/-! ### Positional numerals (shared by the base58, base64, decimal and hex codecs) -/

/-- Fuel-indexed helper of natDigits, structurally recursive so that concrete
instances reduce inside the kernel. -/
def natDigitsF : Nat → Nat → Nat → List Nat
  | 0, _, _ => []
  | fuel + 1, b, n =>
    if n = 0 then []
    else if b ≤ 1 then [n]
    else natDigitsF fuel b (n / b) ++ [n % b]

/-- Digits of n in base b, most significant first; empty for n = 0. -/
def natDigits (b n : Nat) : List Nat := natDigitsF n b n

/-- Value of a most-significant-first digit list in base b. -/
def digitsVal (b : Nat) (ds : List Nat) : Nat :=
  ds.foldl (fun acc d => acc * b + d) 0

/-- Number of leading zero entries of a byte list. -/
def leadZeros : List Nat → Nat
  | [] => 0
  | x :: t => if x = 0 then leadZeros t + 1 else 0

/-- Number of leading occurrences of a given character. -/
def leadChars (a : Char) : Str → Nat
  | [] => 0
  | x :: t => if x = a then leadChars a t + 1 else 0

/-! ### base58btc (model of the bs58 npm package, a big-number base conversion
with '1'-padding for leading zero bytes) -/

/-- Alphabet of base58btc, as in the bs58 library and the LONG_RE character class. -/
def b58Chars : Str := "123456789ABCDEFGHJKLMNPQRSTUVWXYZabcdefghijkmnopqrstuvwxyz".toList

/-- Character for a base58 digit. -/
def b58Char (d : Nat) : Char := b58Chars.getD d '1'

/-- Digit of a base58 character, none for a character outside the alphabet. -/
def b58Index (c : Char) : Option Nat := b58Chars.findIdx? (fun x => x = c)

/-- Model of bs58.encode. -/
def bs58encode (bytes : List Byte) : Str :=
  List.replicate (leadZeros bytes) '1' ++ (natDigits 58 (digitsVal 256 bytes)).map b58Char

/-- Digits of a base58 string, none when some character is outside the alphabet. -/
def b58Indexes : Str → Option (List Nat)
  | [] => some []
  | c :: t =>
    match b58Index c, b58Indexes t with
    | some d, some ds => some (d :: ds)
    | _, _ => none

/-- Model of bs58.decode; none models the thrown error on a non-alphabet character. -/
def bs58decode (s : Str) : Option (List Byte) :=
  match b58Indexes s with
  | none => none
  | some ds => some (List.replicate (leadChars '1' s) 0 ++ natDigits 256 (digitsVal 58 ds))

/-! ### varint (model of the varint npm package, unsigned LEB128) -/

/-- Fuel-indexed helper of varintEncode, structurally recursive. -/
def varintEncodeF : Nat → Nat → List Byte
  | 0, n => [n]
  | fuel + 1, n => if n < 128 then [n] else (n % 128 + 128) :: varintEncodeF fuel (n / 128)

/-- LEB128 encoding of a natural number. -/
def varintEncode (n : Nat) : List Byte := varintEncodeF n n

/-- LEB128 decoding from the front of a byte list; trailing bytes are ignored,
as in varint.decode. -/
def varintDecodeAux : List Byte → Nat → Nat → Option Nat
  | [], _, _ => none
  | b :: rest, shift, acc =>
    if b < 128 then some (acc + b * 2 ^ shift)
    else varintDecodeAux rest (shift + 7) (acc + b % 128 * 2 ^ shift)

/-- Model of varint.decode. -/
def varintDecode (l : List Byte) : Option Nat := varintDecodeAux l 0 0

/-! ### UTF-8 (model of TextEncoder / TextDecoder) -/

/-- UTF-8 bytes of one scalar value. -/
def utf8EncodeChar (c : Char) : List Byte :=
  let n := c.toNat
  if n < 128 then [n]
  else if n < 2048 then [192 + n / 64, 128 + n % 64]
  else if n < 65536 then [224 + n / 4096, 128 + n / 64 % 64, 128 + n % 64]
  else [240 + n / 262144, 128 + n / 4096 % 64, 128 + n / 64 % 64, 128 + n % 64]

/-- Model of TextEncoder().encode. -/
def utf8Encode (s : Str) : List Byte := (s.map utf8EncodeChar).flatten

/-- Model of TextDecoder().decode, used in this development only on valid
encodings; invalid sequences yield none (the decoder's replacement behaviour
on invalid input is never exercised by the verified code paths). -/
def utf8Decode : List Byte → Option Str
  | [] => some []
  | b :: rest =>
    if b < 128 then (utf8Decode rest).map (fun s => Char.ofNat b :: s)
    else if b < 192 then none
    else if b < 224 then
      match rest with
      | b2 :: rest2 =>
        if 128 ≤ b2 ∧ b2 < 192 then
          (utf8Decode rest2).map (fun s => Char.ofNat ((b - 192) * 64 + (b2 - 128)) :: s)
        else none
      | _ => none
    else if b < 240 then
      match rest with
      | b2 :: b3 :: rest3 =>
        if (128 ≤ b2 ∧ b2 < 192) ∧ (128 ≤ b3 ∧ b3 < 192) then
          (utf8Decode rest3).map
            (fun s => Char.ofNat ((b - 224) * 4096 + (b2 - 128) * 64 + (b3 - 128)) :: s)
        else none
      | _ => none
    else if b < 248 then
      match rest with
      | b2 :: b3 :: b4 :: rest4 =>
        if (128 ≤ b2 ∧ b2 < 192) ∧ (128 ≤ b3 ∧ b3 < 192) ∧ (128 ≤ b4 ∧ b4 < 192) then
          (utf8Decode rest4).map
            (fun s =>
              Char.ofNat ((b - 240) * 262144 + (b2 - 128) * 4096 + (b3 - 128) * 64 + (b4 - 128)) :: s)
        else none
      | _ => none
    else none

/-! ### base64 (model of Buffer.from(string).toString of base64) -/

/-- Model of s.startsWith(pat). -/
def strStarts (pat s : Str) : Bool := s.take pat.length == pat

/-- Model of s.includes(pat). -/
def containsSub (pat : Str) : Str → Bool
  | [] => strStarts pat []
  | c :: t => strStarts pat (c :: t) || containsSub pat t

/-- Model of s.split(sep) for a single-character separator. -/
def splitChar (sep : Char) : Str → List Str
  | [] => [[]]
  | x :: xs =>
    if x = sep then [] :: splitChar sep xs
    else
      match splitChar sep xs with
      | [] => [[x]]
      | h :: t => (x :: h) :: t

/-- Model of parts.join(sep) for a single-character separator. -/
def joinSep (sep : Char) : List Str → Str
  | [] => []
  | [x] => x
  | x :: y :: t => x ++ sep :: joinSep sep (y :: t)

/-! ### JSON values (model of plain JS objects and of JSON.stringify / JSON.parse)

Objects are insertion-ordered association lists, matching the key order of JS
objects; numbers are modelled as integers, which covers every numeric field
the repository's messages and documents carry. -/

inductive Json where
  | jnull
  | jbool (b : Bool)
  | jnum (n : Int)
  | jstr (s : Str)
  | jarr (elems : List Json)
  | jobj (fields : List (Str × Json))

mutual

/-- Decidable equality of JSON values, written out so that it reduces inside
the kernel (the derive handler does not support this nested inductive). -/
def Json.decEq : (a b : Json) → Decidable (a = b)
  | .jnull, .jnull => .isTrue rfl
  | .jnull, .jbool _ => .isFalse (fun h => Json.noConfusion h)
  | .jnull, .jnum _ => .isFalse (fun h => Json.noConfusion h)
  | .jnull, .jstr _ => .isFalse (fun h => Json.noConfusion h)
  | .jnull, .jarr _ => .isFalse (fun h => Json.noConfusion h)
  | .jnull, .jobj _ => .isFalse (fun h => Json.noConfusion h)
  | .jbool _, .jnull => .isFalse (fun h => Json.noConfusion h)
  | .jbool a, .jbool b =>
    match Bool.decEq a b with
    | .isTrue h => .isTrue (by rw [h])
    | .isFalse h => .isFalse (fun e => h (by cases e; rfl))
  | .jbool _, .jnum _ => .isFalse (fun h => Json.noConfusion h)
  | .jbool _, .jstr _ => .isFalse (fun h => Json.noConfusion h)
  | .jbool _, .jarr _ => .isFalse (fun h => Json.noConfusion h)
  | .jbool _, .jobj _ => .isFalse (fun h => Json.noConfusion h)
  | .jnum _, .jnull => .isFalse (fun h => Json.noConfusion h)
  | .jnum _, .jbool _ => .isFalse (fun h => Json.noConfusion h)
  | .jnum a, .jnum b =>
    match Int.instDecidableEq a b with
    | .isTrue h => .isTrue (by rw [h])
    | .isFalse h => .isFalse (fun e => h (by cases e; rfl))
  | .jnum _, .jstr _ => .isFalse (fun h => Json.noConfusion h)
  | .jnum _, .jarr _ => .isFalse (fun h => Json.noConfusion h)
  | .jnum _, .jobj _ => .isFalse (fun h => Json.noConfusion h)
  | .jstr _, .jnull => .isFalse (fun h => Json.noConfusion h)
  | .jstr _, .jbool _ => .isFalse (fun h => Json.noConfusion h)
  | .jstr _, .jnum _ => .isFalse (fun h => Json.noConfusion h)
  | .jstr a, .jstr b =>
    match List.hasDecEq a b with
    | .isTrue h => .isTrue (by rw [h])
    | .isFalse h => .isFalse (fun e => h (by cases e; rfl))
  | .jstr _, .jarr _ => .isFalse (fun h => Json.noConfusion h)
  | .jstr _, .jobj _ => .isFalse (fun h => Json.noConfusion h)
  | .jarr _, .jnull => .isFalse (fun h => Json.noConfusion h)
  | .jarr _, .jbool _ => .isFalse (fun h => Json.noConfusion h)
  | .jarr _, .jnum _ => .isFalse (fun h => Json.noConfusion h)
  | .jarr _, .jstr _ => .isFalse (fun h => Json.noConfusion h)
  | .jarr a, .jarr b =>
    match Json.decEqElems a b with
    | .isTrue h => .isTrue (by rw [h])
    | .isFalse h => .isFalse (fun e => h (by cases e; rfl))
  | .jarr _, .jobj _ => .isFalse (fun h => Json.noConfusion h)
  | .jobj _, .jnull => .isFalse (fun h => Json.noConfusion h)
  | .jobj _, .jbool _ => .isFalse (fun h => Json.noConfusion h)
  | .jobj _, .jnum _ => .isFalse (fun h => Json.noConfusion h)
  | .jobj _, .jstr _ => .isFalse (fun h => Json.noConfusion h)
  | .jobj _, .jarr _ => .isFalse (fun h => Json.noConfusion h)
  | .jobj a, .jobj b =>
    match Json.decEqFields a b with
    | .isTrue h => .isTrue (by rw [h])
    | .isFalse h => .isFalse (fun e => h (by cases e; rfl))

/-- Decidable equality of JSON array element lists. -/
def Json.decEqElems : (a b : List Json) → Decidable (a = b)
  | [], [] => .isTrue rfl
  | [], _ :: _ => .isFalse (fun h => List.noConfusion h)
  | _ :: _, [] => .isFalse (fun h => List.noConfusion h)
  | x :: xs, y :: ys =>
    match Json.decEq x y with
    | .isTrue h1 =>
      match Json.decEqElems xs ys with
      | .isTrue h2 => .isTrue (by rw [h1, h2])
      | .isFalse h2 => .isFalse (fun e => h2 (by cases e; rfl))
    | .isFalse h1 => .isFalse (fun e => h1 (by cases e; rfl))

/-- Decidable equality of JSON object member lists. -/
def Json.decEqFields : (a b : List (Str × Json)) → Decidable (a = b)
  | [], [] => .isTrue rfl
  | [], _ :: _ => .isFalse (fun h => List.noConfusion h)
  | _ :: _, [] => .isFalse (fun h => List.noConfusion h)
  | (k1, v1) :: xs, (k2, v2) :: ys =>
    match List.hasDecEq k1 k2 with
    | .isTrue hk =>
      match Json.decEq v1 v2 with
      | .isTrue h1 =>
        match Json.decEqFields xs ys with
        | .isTrue h2 => .isTrue (by rw [hk, h1, h2])
        | .isFalse h2 => .isFalse (fun e => h2 (by cases e; rfl))
      | .isFalse h1 => .isFalse (fun e => h1 (by cases e; rfl))
    | .isFalse hk => .isFalse (fun e => hk (by cases e; rfl))

end

instance : DecidableEq Json := Json.decEq

/-- Model of property read obj[k]: none for a missing key or a non-object. -/
def Json.getField : Json → Str → Option Json
  | .jobj fs, k => fs.lookup k
  | _, _ => none

/-- Helper of setField: replace the first binding in place, else append. -/
def setFieldList (k : Str) (v : Json) : List (Str × Json) → List (Str × Json)
  | [] => [(k, v)]
  | (k', v') :: t => if k' = k then (k', v) :: t else (k', v') :: setFieldList k v t

/-- Model of property write obj[k] = v: an existing key keeps its position,
a new key is appended; non-objects are left unchanged. -/
def Json.setField : Json → Str → Json → Json
  | .jobj fs, k, v => .jobj (setFieldList k v fs)
  | j, _, _ => j

/-- Model of delete obj[k]. -/
def Json.removeField : Json → Str → Json
  | .jobj fs, k => .jobj (fs.filter (fun kv => !(kv.1 == k)))
  | j, _ => j

/-- JS truthiness of an optional value (none models undefined). -/
def truthy : Option Json → Bool
  | none => false
  | some .jnull => false
  | some (.jbool b) => b
  | some (.jnum n) => !(n == 0)
  | some (.jstr s) => !s.isEmpty
  | some (.jarr _) => true
  | some (.jobj _) => true

/-- Lowercase hexadecimal digit character. -/
def hexChar (d : Nat) : Char := "0123456789abcdef".toList.getD d '0'

/-- Escaping of one character inside a JSON string literal, as JSON.stringify. -/
def escapeChar (c : Char) : Str :=
  if c = '"' then ['\\', '"']
  else if c = '\\' then ['\\', '\\']
  else if c.toNat = 8 then ['\\', 'b']
  else if c.toNat = 9 then ['\\', 't']
  else if c.toNat = 10 then ['\\', 'n']
  else if c.toNat = 12 then ['\\', 'f']
  else if c.toNat = 13 then ['\\', 'r']
  else if c.toNat < 32 then ['\\', 'u', '0', '0', hexChar (c.toNat / 16), hexChar (c.toNat % 16)]
  else [c]

/-- Escaped body of a JSON string literal. -/
def escString (s : Str) : Str := (s.map escapeChar).flatten

/-- Decimal digit character. -/
def decChar (d : Nat) : Char := "0123456789".toList.getD d '0'

/-- Decimal text of a natural number. -/
def natToChars (n : Nat) : Str :=
  if n = 0 then ['0'] else (natDigits 10 n).map decChar

/-- Decimal text of an integer, as JSON.stringify on an integral number. -/
def intToChars (n : Int) : Str :=
  if n < 0 then '-' :: natToChars (-n).toNat else natToChars n.toNat

mutual

/-- Model of JSON.stringify (no spacing argument). -/
def Json.stringify : Json → Str
  | .jnull => "null".toList
  | .jbool true => "true".toList
  | .jbool false => "false".toList
  | .jnum n => intToChars n
  | .jstr s => '"' :: escString s ++ ['"']
  | .jarr xs => '[' :: stringifyElems xs ++ [']']
  | .jobj fs => '{' :: stringifyFields fs ++ ['}']

/-- Comma-separated rendering of array elements. -/
def stringifyElems : List Json → Str
  | [] => []
  | [x] => x.stringify
  | x :: y :: t => x.stringify ++ ',' :: stringifyElems (y :: t)

/-- Comma-separated rendering of object members. -/
def stringifyFields : List (Str × Json) → Str
  | [] => []
  | [(k, v)] => '"' :: escString k ++ '"' :: ':' :: v.stringify
  | (k, v) :: f :: t =>
    ('"' :: escString k ++ '"' :: ':' :: v.stringify) ++ ',' :: stringifyFields (f :: t)

end

/-- Whitespace test of the JSON grammar. -/
def jsonWs (c : Char) : Bool := c = ' ' || c.toNat = 9 || c.toNat = 10 || c.toNat = 13

/-- Skipping of leading JSON whitespace. -/
def skipWs : Str → Str
  | [] => []
  | c :: t => if jsonWs c then skipWs t else c :: t

/-- Value of a hexadecimal digit character, either case. -/
def parseHexDigit (c : Char) : Option Nat :=
  if 48 ≤ c.toNat ∧ c.toNat ≤ 57 then some (c.toNat - 48)
  else if 97 ≤ c.toNat ∧ c.toNat ≤ 102 then some (c.toNat - 87)
  else if 65 ≤ c.toNat ∧ c.toNat ≤ 70 then some (c.toNat - 55)
  else none

/-- Fuel-indexed parsing of a JSON string literal body after the opening
quote; the fuel makes the recursion structural, it is always called with the
input length as fuel. -/
def parseStringBodyF : Nat → Str → Option (Str × Str)
  | 0, _ => none
  | fuel + 1, s =>
    match s with
    | [] => none
    | c :: rest =>
      if c = '"' then some ([], rest)
      else if c = '\\' then
        match rest with
        | [] => none
        | e :: rest2 =>
          if e = '"' then (parseStringBodyF fuel rest2).map (fun p => ('"' :: p.1, p.2))
          else if e = '\\' then (parseStringBodyF fuel rest2).map (fun p => ('\\' :: p.1, p.2))
          else if e = '/' then (parseStringBodyF fuel rest2).map (fun p => ('/' :: p.1, p.2))
          else if e = 'b' then
            (parseStringBodyF fuel rest2).map (fun p => (Char.ofNat 8 :: p.1, p.2))
          else if e = 'f' then
            (parseStringBodyF fuel rest2).map (fun p => (Char.ofNat 12 :: p.1, p.2))
          else if e = 'n' then
            (parseStringBodyF fuel rest2).map (fun p => (Char.ofNat 10 :: p.1, p.2))
          else if e = 'r' then
            (parseStringBodyF fuel rest2).map (fun p => (Char.ofNat 13 :: p.1, p.2))
          else if e = 't' then
            (parseStringBodyF fuel rest2).map (fun p => (Char.ofNat 9 :: p.1, p.2))
          else if e = 'u' then
            match rest2 with
            | h1 :: h2 :: h3 :: h4 :: rest3 =>
              match parseHexDigit h1, parseHexDigit h2, parseHexDigit h3, parseHexDigit h4 with
              | some d1, some d2, some d3, some d4 =>
                (parseStringBodyF fuel rest3).map
                  (fun p => (Char.ofNat (d1 * 4096 + d2 * 256 + d3 * 16 + d4) :: p.1, p.2))
              | _, _, _, _ => none
            | _ => none
          else none
      else if c.toNat < 32 then none
      else (parseStringBodyF fuel rest).map (fun p => (c :: p.1, p.2))

/-- Parsing of a JSON string literal body after the opening quote. -/
def parseStringBody (s : Str) : Option (Str × Str) := parseStringBodyF s.length s

/-- Decimal digit test. -/
def isDigitChar (c : Char) : Bool := 48 ≤ c.toNat && c.toNat ≤ 57

/-- Longest digit run at the front, as values, with the remainder. -/
def takeDigits : Str → (List Nat × Str)
  | [] => ([], [])
  | c :: t =>
    if isDigitChar c then
      match takeDigits t with
      | (ds, r) => ((c.toNat - 48) :: ds, r)
    else ([], c :: t)

/-- Parsing of an unsigned integer literal (at least one digit). -/
def parseNatNum (s : Str) : Option (Nat × Str) :=
  match takeDigits s with
  | ([], _) => none
  | (ds, r) => some (digitsVal 10 ds, r)

/-- Test of the first character of a string. -/
def headIs (a : Char) : Str → Bool
  | [] => false
  | c :: _ => c == a

mutual

/-- Fuel-indexed JSON value parser (model of JSON.parse, integers only);
keywords and delimiters are dispatched through an if-chain on the first
non-whitespace character. -/
def parseVal : Nat → Str → Option (Json × Str)
  | 0, _ => none
  | fuel + 1, s =>
    match skipWs s with
    | [] => none
    | c :: r =>
      if c = 'n' then
        if strStarts "ull".toList r then some (.jnull, r.drop 3) else none
      else if c = 't' then
        if strStarts "rue".toList r then some (.jbool true, r.drop 3) else none
      else if c = 'f' then
        if strStarts "alse".toList r then some (.jbool false, r.drop 4) else none
      else if c = '"' then (parseStringBody r).map (fun p => (.jstr p.1, p.2))
      else if c = '[' then
        if headIs ']' (skipWs r) then some (.jarr [], (skipWs r).tail)
        else (parseElems fuel (skipWs r)).map (fun p => (.jarr p.1, p.2))
      else if c = '{' then
        if headIs '}' (skipWs r) then some (.jobj [], (skipWs r).tail)
        else (parseMembers fuel (skipWs r)).map (fun p => (.jobj p.1, p.2))
      else if c = '-' then (parseNatNum r).map (fun p => (.jnum (-(p.1 : Int)), p.2))
      else if isDigitChar c then (parseNatNum (c :: r)).map (fun p => (.jnum (p.1 : Int), p.2))
      else none

/-- Parsing of one or more array elements up to the closing bracket. -/
def parseElems : Nat → Str → Option (List Json × Str)
  | 0, _ => none
  | fuel + 1, s =>
    match parseVal fuel s with
    | none => none
    | some (x, r) =>
      if headIs ',' (skipWs r) then
        (parseElems fuel (skipWs r).tail).map (fun p => (x :: p.1, p.2))
      else if headIs ']' (skipWs r) then some ([x], (skipWs r).tail)
      else none

/-- Parsing of one or more object members up to the closing brace. -/
def parseMembers : Nat → Str → Option (List (Str × Json) × Str)
  | 0, _ => none
  | fuel + 1, s =>
    if headIs '"' (skipWs s) then
      match parseStringBody (skipWs s).tail with
      | none => none
      | some (k, r1) =>
        if headIs ':' (skipWs r1) then
          match parseVal fuel (skipWs r1).tail with
          | none => none
          | some (v, r3) =>
            if headIs ',' (skipWs r3) then
              (parseMembers fuel (skipWs r3).tail).map (fun p => ((k, v) :: p.1, p.2))
            else if headIs '}' (skipWs r3) then some ([(k, v)], (skipWs r3).tail)
            else none
        else none
    else none

end

/-- Model of JSON.parse: none models the thrown SyntaxError. -/
def jsonParse (s : Str) : Option Json :=
  match parseVal (s.length + 1) s with
  | some (j, rest) => if skipWs rest = [] then some j else none
  | none => none

/-- Test that a string does not begin with a decimal digit (used to delimit
number literals in the parser correctness lemmas). -/
def headNotDigit : Str → Bool
  | [] => true
  | c :: _ => !isDigitChar c

mutual

/-- Structural size of a JSON value, a lower bound for the parser fuel. -/
def sizeJ : Json → Nat
  | .jnull => 1
  | .jbool _ => 1
  | .jnum _ => 1
  | .jstr _ => 1
  | .jarr xs => 1 + sizeElems xs
  | .jobj fs => 1 + sizeFields fs

/-- Structural size of a list of array elements. -/
def sizeElems : List Json → Nat
  | [] => 0
  | x :: t => 1 + sizeJ x + sizeElems t

/-- Structural size of a list of object members. -/
def sizeFields : List (Str × Json) → Nat
  | [] => 0
  | (_, v) :: t => 1 + sizeJ v + sizeFields t

end

/-! ### Multiformat codec (src/unnamed/part_000 top half and src/unnamed/part_004;
the client and server copies are textually duplicated, one embedding serves both) -/

/-- Hash primitives such as sha256 come from an external library; the codec is
parameterised over the digest function. -/
abbrev HashFn := List Byte → List Byte

/-- Multicodec identifier of an Ed25519 public key. -/
def ed25519Pub : Nat := 0xed

/-- Multicodec identifier of an X25519 public key. -/
def x25519Pub : Nat := 0xec

/-- Multicodec identifier of JSON. -/
def jsonCodec : Nat := 0x0200

/-- Model of toMultibaseB58. -/
def toMultibaseB58 (input : List Byte) : Str := 'z' :: bs58encode input

/-- Model of fromMultibaseB58 (strips the marker, base58-decodes the rest). -/
def fromMultibaseB58 (input : Str) : Option (List Byte) := bs58decode (input.drop 1)

/-- Model of toMultikeyEd25519 (varint multicodec tag, then raw key, multibase-wrapped). -/
def toMultikeyEd25519 (publicKey : List Byte) : Str :=
  toMultibaseB58 (varintEncode ed25519Pub ++ publicKey)

/-- Model of toMultikeyX25519. -/
def toMultikeyX25519 (publicKey : List Byte) : Str :=
  toMultibaseB58 (varintEncode x25519Pub ++ publicKey)

/-- Model of multihashSha256: the two-byte multihash header 0x12 0x20 followed
by the digest supplied by the external hash library. -/
def multihashSha256 (sha : HashFn) (input : List Byte) : List Byte :=
  0x12 :: 0x20 :: sha input

/-- Model of toMulticodecJson: two-byte varint JSON codec tag, then the UTF-8
bytes of JSON.stringify. -/
def toMulticodecJson (input : Json) : List Byte :=
  varintEncode jsonCodec ++ utf8Encode input.stringify

/-- Model of fromMulticodecJson: drop the two tag bytes, UTF-8 decode, JSON.parse. -/
def fromMulticodecJson (input : List Byte) : Option Json :=
  (utf8Decode (input.drop 2)).bind jsonParse

/-- Multibase text of the multihash of the UTF-8 bytes of an encoded document;
hashDocument is textually identical in the client and server peer4 modules. -/
def hashDocument (sha : HashFn) (encodedDocument : Str) : Str :=
  toMultibaseB58 (multihashSha256 sha (utf8Encode encodedDocument))

/-- Append onto a JSON array, as Array.prototype.push; non-arrays are left
unchanged (the source would throw there, a case never reached on the paths
verified below). -/
def pushJson (v : Json) (x : Json) : Json :=
  match v with
  | .jarr xs => .jarr (xs ++ [x])
  | other => other

/-- Map a function over the elements of an array-valued field, as the sources'
field?.map(...) idiom; missing or non-array fields are left untouched. -/
def mapFieldIfArr (doc : Json) (k : Str) (f : Json → Json) : Json :=
  match doc.getField k with
  | some (.jarr xs) => doc.setField k (.jarr (xs.map f))
  | _ => doc

/-! ### Client peer4 codec (src/src/lib/peer4.ts) -/

namespace ClientPeer4

/-- Errors thrown by the client codec, one constructor per throw site. -/
inductive Peer4Err where
  | invalidDid
  | shortFormDecode
  | notLongForm
  | integrityError
  | formatError
deriving DecidableEq

/-- Model of LONG_RE: did:peer:4zQm, 44 base58 characters, colon, z, at least
six base58 characters, anchored at both ends. -/
def longReTest (s : Str) : Bool :=
  s.take 13 == "did:peer:4zQm".toList &&
  (let rest := s.drop 13
   (rest.take 44).all (fun c => b58Chars.contains c) &&
   match rest.drop 44 with
   | ':' :: 'z' :: tail => decide (6 ≤ tail.length) && tail.all (fun c => b58Chars.contains c)
   | _ => false)

/-- Model of SHORT_RE: did:peer:4zQm then exactly 44 base58 characters. -/
def shortReTest (s : Str) : Bool :=
  s.take 13 == "did:peer:4zQm".toList &&
  (let rest := s.drop 13
   rest.length == 44 && rest.all (fun c => b58Chars.contains c))

/-- Model of the client encodeDocument: multicodec-JSON then multibase; the
client module does not strip an id field. -/
def encodeDocument (document : Json) : Str := toMultibaseB58 (toMulticodecJson document)

/-- Model of the client encode. -/
def encode (sha : HashFn) (inputDocument : Json) : Str :=
  let encodedDocument := encodeDocument inputDocument
  let hash := hashDocument sha encodedDocument
  "did:peer:4".toList ++ hash ++ ':' :: encodedDocument

/-- Model of encodeShort. -/
def encodeShort (sha : HashFn) (inputDocument : Json) : Str :=
  "did:peer:4".toList ++ hashDocument sha (encodeDocument inputDocument)

/-- Truncation at the last colon, as did.slice(0, did.lastIndexOf(the colon)). -/
def cutLast (sep : Char) (s : Str) : Str := joinSep sep ((splitChar sep s).dropLast)

/-- Model of longToShort. -/
def longToShort (did : Str) : Except Peer4Err Str :=
  if !longReTest did then .error .notLongForm else .ok (cutLast ':' did)

/-- Model of the client decode, one error constructor per throw site; the hash
comparison happens before the document segment is base58/JSON decoded. -/
def decode (sha : HashFn) (did : Str) : Except Peer4Err Json :=
  if !strStarts "did:peer:4".toList did then .error .invalidDid
  else if shortReTest did then .error .shortFormDecode
  else if !longReTest did then .error .invalidDid
  else
    let parts := splitChar ':' (did.drop 10)
    let hash := parts.getD 0 []
    let doc := parts.getD 1 []
    if hash ≠ hashDocument sha doc then .error .integrityError
    else
      match fromMultibaseB58 doc with
      | none => .error .formatError
      | some bytes =>
        match fromMulticodecJson bytes with
        | none => .error .formatError
        | some decoded => .ok decoded

/-- Model of operateOnEmbedded: strings pass through, objects get the callback. -/
def operateOnEmbedded (callback : Json → Json) (document : Json) : Json :=
  match document with
  | .jstr s => .jstr s
  | other => callback other

/-- Model of visitVerificationMethods: the callback applied to the method list
and, through operateOnEmbedded, to each reference list. -/
def visitVerificationMethods (document : Json) (callback : Json → Json) : Json :=
  let d1 := mapFieldIfArr document "verificationMethod".toList callback
  let d2 := mapFieldIfArr d1 "authentication".toList (operateOnEmbedded callback)
  let d3 := mapFieldIfArr d2 "assertionMethod".toList (operateOnEmbedded callback)
  let d4 := mapFieldIfArr d3 "keyAgreement".toList (operateOnEmbedded callback)
  let d5 := mapFieldIfArr d4 "capabilityDelegation".toList (operateOnEmbedded callback)
  mapFieldIfArr d5 "capabilityInvocation".toList (operateOnEmbedded callback)

/-- Model of the client contextualizeDocument: inject id, and give every
verification method without a controller the DID as controller; no reference
expansion and no Multikey type mapping happen here. -/
def contextualizeDocument (did : Str) (document : Json) : Json :=
  let contextualized := document.setField "id".toList (.jstr did)
  visitVerificationMethods contextualized (fun vm =>
    match vm with
    | .jobj _ =>
      match vm.getField "controller".toList with
      | none => vm.setField "controller".toList (.jstr did)
      | some _ => vm
    | other => other)

/-- Model of the client resolve: decode, contextualize under the long form,
then append the short form to alsoKnownAs. -/
def resolve (sha : HashFn) (did : Str) : Except Peer4Err Json := do
  let decodedDocument ← decode sha did
  let document := contextualizeDocument did decodedDocument
  let aka :=
    match document.getField "alsoKnownAs".toList with
    | some v => if truthy (some v) then v else .jarr []
    | none => .jarr []
  let short ← longToShort did
  pure (document.setField "alsoKnownAs".toList (pushJson aka (.jstr short)))

end ClientPeer4

/-! ### Server peer4 codec (src/unnamed/part_000 bottom half) -/

namespace ServerPeer4

/-- Errors thrown by the server codec. -/
inductive ServerErr where
  | invalidFormat
  | decodeFailure
deriving DecidableEq

/-- Model of the server encodeDocument: the id field is deleted before
serialization. -/
def encodeDocument (inputDocument : Json) : Str :=
  toMultibaseB58 (toMulticodecJson (inputDocument.removeField "id".toList))

/-- Model of the server encode. -/
def encode (sha : HashFn) (inputDocument : Json) : Str :=
  let encodedDocument := encodeDocument inputDocument
  let hash := hashDocument sha encodedDocument
  "did:peer:4".toList ++ hash ++ ':' :: encodedDocument

/-- Model of decodeDocument: multibase then multicodec-JSON decoding. -/
def decodeDocument (encodedDocument : Str) : Option Json :=
  (fromMultibaseB58 encodedDocument).bind fromMulticodecJson

/-- The string value of a document's id field, empty when absent (the absent
case is unreachable where this is used). -/
def idString (doc : Json) : Str :=
  match doc.getField "id".toList with
  | some (.jstr s) => s
  | _ => []

/-- Transformation of one verification method during server contextualization:
relative id expansion, controller injection, Multikey-to-concrete-suite type
mapping from the multicodec prefix of publicKeyMultibase. -/
def contextualizeVm (id : Str) (vm : Json) : Json :=
  match vm with
  | .jobj _ =>
    let withId :=
      match vm.getField "id".toList with
      | some (.jstr s) =>
        vm.setField "id".toList (.jstr (if strStarts "#".toList s then id ++ s else s))
      | _ => vm
    let withCtrl := withId.setField "controller".toList (.jstr id)
    let isMultikey : Bool :=
      match vm.getField "type".toList with
      | some (.jstr t) => t == "Multikey".toList
      | _ => false
    if isMultikey && truthy (vm.getField "publicKeyMultibase".toList) then
      match vm.getField "publicKeyMultibase".toList with
      | some (.jstr pk) =>
        match fromMultibaseB58 pk with
        | some keyBytes =>
          match varintDecode keyBytes with
          | some code =>
            if code = ed25519Pub then
              withCtrl.setField "type".toList (.jstr "Ed25519VerificationKey2020".toList)
            else if code = x25519Pub then
              withCtrl.setField "type".toList (.jstr "X25519KeyAgreementKey2020".toList)
            else withCtrl
          | none => withCtrl
        | none => withCtrl
      | _ => withCtrl
    else withCtrl
  | other => other

/-- Transformation of one reference entry during server contextualization:
strings beginning with a hash are expanded against the document id. -/
def contextualizeRef (id : Str) (ref : Json) : Json :=
  match ref with
  | .jstr s => if strStarts "#".toList s then .jstr (id ++ s) else .jstr s
  | other => other

/-- Model of the server contextualizeDocument: expand relative verification
method ids, set controller, map Multikey to concrete suite names from the
multicodec prefix of publicKeyMultibase, and expand relative string references
in authentication and keyAgreement. -/
def contextualizeDocument (doc : Json) : Json :=
  let id := idString doc
  let d1 := mapFieldIfArr doc "verificationMethod".toList (contextualizeVm id)
  let d2 := mapFieldIfArr d1 "authentication".toList (contextualizeRef id)
  mapFieldIfArr d2 "keyAgreement".toList (contextualizeRef id)

/-- Model of the server resolve: split on colons, decode the document segment
without any hash verification, install id and alsoKnownAs according to
preserveLongForm, then contextualize. -/
def resolve (longFormDid : Str) (preserveLongForm : Bool) : Except ServerErr Json :=
  let parts := splitChar ':' longFormDid
  if parts.length < 4 || !(parts.getD 0 [] == "did".toList) || !(parts.getD 1 [] == "peer".toList)
      || !strStarts "4".toList (parts.getD 2 []) then
    .error .invalidFormat
  else
    let encodedDoc := joinSep ':' (parts.drop 3)
    match decodeDocument encodedDoc with
    | none => .error .decodeFailure
    | some document =>
      let shortForm := parts.getD 0 [] ++ ':' :: parts.getD 1 [] ++ ':' :: parts.getD 2 []
      let document :=
        document.setField "id".toList (.jstr (if preserveLongForm then longFormDid else shortForm))
      let document :=
        if truthy (document.getField "alsoKnownAs".toList) then document
        else document.setField "alsoKnownAs".toList (.jarr [])
      let document :=
        match document.getField "alsoKnownAs".toList with
        | some aka =>
          document.setField "alsoKnownAs".toList
            (pushJson aka (.jstr (if preserveLongForm then shortForm else longFormDid)))
        | none => document
      .ok (contextualizeDocument document)

end ServerPeer4

/-! ### DID resolvers and secret stores (src/server/didcomm-handler.js and
src/src/services/didcommService.ts) -/

/-- Resolver caches and secret stores are JS objects / Maps over string keys,
modelled as insertion-ordered association lists with upsert semantics. -/
abbrev DidMap := List (Str × Json)

/-- Model of the server resolveDIDKey (didcomm-handler.js): the decoded bytes
are computed (and may throw on bad base58) but do not appear in the returned
document. -/
def serverResolveDIDKey (did : Str) : Option Json :=
  let keyId := did.drop 8
  (bs58decode (keyId.drop 1)).map (fun _ =>
    .jobj [
      ("@context".toList, .jarr [
        .jstr "https://www.w3.org/ns/did/v1".toList,
        .jstr "https://w3id.org/security/suites/x25519-2020/v1".toList]),
      ("id".toList, .jstr did),
      ("verificationMethod".toList, .jarr [
        .jobj [
          ("id".toList, .jstr (did ++ '#' :: keyId)),
          ("type".toList, .jstr "X25519KeyAgreementKey2020".toList),
          ("controller".toList, .jstr did),
          ("publicKeyMultibase".toList, .jstr keyId)]]),
      ("keyAgreement".toList, .jarr [.jstr (did ++ '#' :: keyId)])])

/-- Model of ServerDIDResolver.resolve and of the plain-object didResolver of
didcomm-handler.js (they implement the same algorithm): cache hit, did:key,
did:peer:4 long form with cache population under the DID and all aliases,
otherwise unresolvable. -/
def serverResolverResolve (st : DidMap) (did : Str) : Option Json × DidMap :=
  match st.lookup did with
  | some d => (some d, st)
  | none =>
    if strStarts "did:key:".toList did then (serverResolveDIDKey did, st)
    else if strStarts "did:peer:4".toList did && containsSub ":z".toList did then
      match ServerPeer4.resolve did true with
      | .ok resolved =>
        let st1 := setFieldList did resolved st
        let st2 :=
          match resolved.getField "alsoKnownAs".toList with
          | some (.jarr aliases) =>
            aliases.foldl (fun m a =>
              match a with
              | .jstr s => setFieldList s resolved m
              | _ => m) st1
          | _ => st1
        (some resolved, st2)
      | .error _ => (none, st)
    else (none, st)

/-- Model of the client resolveDIDKey (didcommService.ts): three branches on
the multibase prefix of the key identifier. -/
def clientResolveDIDKey (did : Str) : Json :=
  let keyId := did.drop 8
  let ref : Json := .jstr (did ++ '#' :: keyId)
  if strStarts "z6Mk".toList keyId then
    .jobj [
      ("@context".toList, .jarr [
        .jstr "https://www.w3.org/ns/did/v1".toList,
        .jstr "https://w3id.org/security/suites/ed25519-2020/v1".toList,
        .jstr "https://w3id.org/security/suites/x25519-2020/v1".toList]),
      ("id".toList, .jstr did),
      ("verificationMethod".toList, .jarr [
        .jobj [
          ("id".toList, .jstr (did ++ '#' :: keyId)),
          ("type".toList, .jstr "Ed25519VerificationKey2020".toList),
          ("controller".toList, .jstr did),
          ("publicKeyMultibase".toList, .jstr keyId)]]),
      ("authentication".toList, .jarr [ref]),
      ("assertionMethod".toList, .jarr [ref]),
      ("capabilityDelegation".toList, .jarr [ref]),
      ("capabilityInvocation".toList, .jarr [ref]),
      ("keyAgreement".toList, .jarr [ref]),
      ("service".toList, .jarr [])]
  else if strStarts "z6LS".toList keyId then
    .jobj [
      ("@context".toList, .jarr [
        .jstr "https://www.w3.org/ns/did/v1".toList,
        .jstr "https://w3id.org/security/suites/x25519-2020/v1".toList]),
      ("id".toList, .jstr did),
      ("verificationMethod".toList, .jarr [
        .jobj [
          ("id".toList, .jstr (did ++ '#' :: keyId)),
          ("type".toList, .jstr "X25519KeyAgreementKey2020".toList),
          ("controller".toList, .jstr did),
          ("publicKeyMultibase".toList, .jstr keyId)]]),
      ("authentication".toList, .jarr []),
      ("keyAgreement".toList, .jarr [ref]),
      ("service".toList, .jarr [])]
  else
    .jobj [
      ("@context".toList, .jarr [
        .jstr "https://www.w3.org/ns/did/v1".toList,
        .jstr "https://w3id.org/security/suites/ed25519-2020/v1".toList]),
      ("id".toList, .jstr did),
      ("verificationMethod".toList, .jarr [
        .jobj [
          ("id".toList, .jstr (did ++ '#' :: keyId)),
          ("type".toList, .jstr "Ed25519VerificationKey2020".toList),
          ("controller".toList, .jstr did),
          ("publicKeyMultibase".toList, .jstr keyId)]]),
      ("authentication".toList, .jarr [ref]),
      ("service".toList, .jarr [])]

/-- Model of ClientDIDResolver.resolve (didcommService.ts): cache hit, did:key,
did:peer:4 long form resolved through the client codec; note that the resolved
peer-4 document is returned without being inserted into the cache. -/
def clientResolverResolve (sha : HashFn) (st : DidMap) (did : Str) : Option Json × DidMap :=
  match st.lookup did with
  | some d => (some d, st)
  | none =>
    if strStarts "did:key:".toList did then (some (clientResolveDIDKey did), st)
    else if strStarts "did:peer:4".toList did then
      if ClientPeer4.longReTest did then
        match ClientPeer4.resolve sha did with
        | .ok d => (some d, st)
        | .error _ => (none, st)
      else (none, st)
    else (none, st)

/-- Fully qualified key identifier, as the concatenation mobileDID.did +
keyData.id used by loadMobileKeys (and by the server secrets setup). -/
def fullKeyId (did frag : Str) : Str := did ++ frag

/-- Model of get_secret of ClientSecretsResolver / ServerSecretsResolver: an
exact string lookup that returns null (none) when the key is not held. -/
def getSecret (st : DidMap) (keyId : Str) : Option Json := st.lookup keyId

/-- Model of addSecret: upsert under the given key id. -/
def addSecret (st : DidMap) (keyId : Str) (secret : Json) : DidMap :=
  setFieldList keyId secret st

/-- Model of find_secrets: the candidate ids whose secrets are held. -/
def findSecrets (st : DidMap) (secretIds : List Str) : List Str :=
  secretIds.filter (fun i => (st.lookup i).isSome)

/-! ### Routing engine (sendDIDCommMessage of src/server/index.js) -/

/-- Unpack metadata of a plaintext message. -/
structure UnpackMeta where
  encrypted : Bool
  authenticated : Bool
  anonymousSender : Bool
deriving DecidableEq

/-- Outcome of the plaintext fast path of unpackMessage: either the message is
returned unchanged with plaintext metadata, or the (stringified) input is
handed to the external Message.unpack decryption collaborator. -/
inductive UnpackOutcome where
  | plaintext (message : Json) (metadata : UnpackMeta)
  | decryptAttempt (messageStr : Str)
deriving DecidableEq

/-- JS typeof x === 'object' for JSON-representable values. -/
def isObjectLike : Json → Bool
  | .jarr _ => true
  | .jobj _ => true
  | .jnull => true
  | _ => false

/-- Model of the head of unpackMessage: an object with a truthy type and a
falsy ciphertext is returned unchanged as plaintext with all-false metadata;
everything else is stringified if needed and handed to the decryption
collaborator. -/
def unpackMessageHead (packedMessage : Json) : UnpackOutcome :=
  if isObjectLike packedMessage && truthy (packedMessage.getField "type".toList)
      && !truthy (packedMessage.getField "ciphertext".toList) then
    .plaintext packedMessage ⟨false, false, false⟩
  else
    .decryptAttempt
      (match packedMessage with
       | .jstr s => s
       | other => other.stringify)

/-- Decidable equality for Except results, written so that it reduces inside
the kernel during concrete evaluation. -/
instance {ε α : Type} [DecidableEq ε] [DecidableEq α] : DecidableEq (Except ε α) := fun a b =>
  match a, b with
  | .error x, .error y =>
    if h : x = y then .isTrue (by rw [h]) else .isFalse (fun e => h (by cases e; rfl))
  | .ok x, .ok y =>
    if h : x = y then .isTrue (by rw [h]) else .isFalse (fun e => h (by cases e; rfl))
  | .error _, .ok _ => .isFalse (fun h => Except.noConfusion h)
  | .ok _, .error _ => .isFalse (fun h => Except.noConfusion h)

/-! ### Concrete instances used in the claim theorems and witnesses -/

/-- Interface of the external sha256 library assumed by the codec: 32-byte
digests. -/
def GoodSha (sha : HashFn) : Prop := ∀ x, (sha x).length = 32 ∧ ∀ b ∈ sha x, b < 256

/-- Concrete stand-in digest function for witnesses (constant digest). -/
def shaZero : HashFn := fun _ => List.replicate 32 0

/-- Concrete stand-in digest function that depends on the input length, so
that different-length inputs hash differently. -/
def shaLen : HashFn := fun x => (x.length % 256) :: List.replicate 31 0

/-- Example document of the specification: one Multikey verification method
with a relative id, referenced from authentication (a short key keeps
concrete evaluation cheap; only its multicodec prefix matters). -/
def exDoc : Json := .jobj [
  ("verificationMethod".toList, .jarr [
    .jobj [
      ("id".toList, .jstr "#key-1".toList),
      ("type".toList, .jstr "Multikey".toList),
      ("publicKeyMultibase".toList, .jstr (toMultikeyEd25519 [7, 8]))]]),
  ("authentication".toList, .jarr [.jstr "#key-1".toList])]

/-- Attacker document for the hash-mismatch experiments. -/
def docA : Json := .jobj [("attacker".toList, .jstr "owned".toList)]

/-- Honest document whose hash is paired with the attacker document's
segment; its encoded segment has a different length than docA's, so shaLen
distinguishes them. -/
def docB : Json := .jobj [("a".toList, .jstr "bb".toList)]

/-- Long-form identifier whose hash segment belongs to docB while the
document segment carries docA: its hash does not verify. -/
def tamperedDid : Str :=
  "did:peer:4".toList ++ hashDocument shaLen (ServerPeer4.encodeDocument docB) ++
    ':' :: ServerPeer4.encodeDocument docA

/-! ## Infrastructure lemmas: positional numerals -/

theorem natDigitsF_zero (b : Nat) : ∀ fuel, natDigitsF fuel b 0 = []
  | 0 => rfl
  | _ + 1 => by simp [natDigitsF]

theorem natDigitsF_of_le (b : Nat) :
    ∀ fuel₁ fuel₂ n, n ≤ fuel₁ → n ≤ fuel₂ → natDigitsF fuel₁ b n = natDigitsF fuel₂ b n := by
  intro fuel₁
  induction fuel₁ with
  | zero =>
    intro fuel₂ n h1 _
    have hn : n = 0 := by omega
    subst hn
    rw [natDigitsF_zero, natDigitsF_zero]
  | succ f ih =>
    intro fuel₂ n h1 h2
    cases n with
    | zero => rw [natDigitsF_zero, natDigitsF_zero]
    | succ m =>
      cases fuel₂ with
      | zero => omega
      | succ f₂ =>
        show natDigitsF (f + 1) b (m + 1) = natDigitsF (f₂ + 1) b (m + 1)
        simp only [natDigitsF, Nat.succ_ne_zero, if_false]
        by_cases hb : b ≤ 1
        · simp [hb]
        · have hlt : (m + 1) / b < m + 1 := Nat.div_lt_self (by omega) (by omega)
          rw [if_neg hb, if_neg hb, ih f₂ ((m + 1) / b) (by omega) (by omega)]

theorem natDigits_rec (b n : Nat) :
    natDigits b n =
      if n = 0 then [] else if b ≤ 1 then [n] else natDigits b (n / b) ++ [n % b] := by
  cases n with
  | zero => rfl
  | succ m =>
    show natDigitsF (m + 1) b (m + 1) = _
    simp only [natDigitsF, Nat.succ_ne_zero, if_false]
    by_cases hb : b ≤ 1
    · simp [hb]
    · have hlt : (m + 1) / b < m + 1 := Nat.div_lt_self (by omega) (by omega)
      rw [if_neg hb, if_neg hb,
        natDigitsF_of_le b m ((m + 1) / b) ((m + 1) / b) (by omega) (by omega)]
      rfl

theorem digitsVal_from (b a : Nat) (ds : List Nat) :
    ds.foldl (fun acc d => acc * b + d) a = a * b ^ ds.length + digitsVal b ds := by
  induction ds generalizing a with
  | nil => simp [digitsVal]
  | cons d t ih =>
    show List.foldl _ (a * b + d) t = _
    rw [ih (a * b + d)]
    have hd : digitsVal b (d :: t) = d * b ^ t.length + digitsVal b t := by
      show List.foldl _ (0 * b + d) t = _
      rw [ih (0 * b + d)]
      ring_nf
    rw [hd]
    simp [List.length_cons]
    ring

theorem digitsVal_cons (b d : Nat) (t : List Nat) :
    digitsVal b (d :: t) = d * b ^ t.length + digitsVal b t := by
  show List.foldl _ (0 * b + d) t = _
  rw [digitsVal_from]
  ring_nf

theorem digitsVal_append (b : Nat) (xs ys : List Nat) :
    digitsVal b (xs ++ ys) = digitsVal b xs * b ^ ys.length + digitsVal b ys := by
  show List.foldl _ 0 (xs ++ ys) = _
  rw [List.foldl_append]
  exact digitsVal_from b (digitsVal b xs) ys

theorem digitsVal_snoc (b d : Nat) (t : List Nat) :
    digitsVal b (t ++ [d]) = digitsVal b t * b + d := by
  show List.foldl _ 0 (t ++ [d]) = _
  rw [List.foldl_append]
  rfl

theorem digitsVal_replicate_zero (b k : Nat) : digitsVal b (List.replicate k 0) = 0 := by
  induction k with
  | zero => rfl
  | succ m ih =>
    rw [List.replicate_succ, digitsVal_cons, ih]
    simp

theorem digitsVal_lt (b : Nat) (ds : List Nat) (_hb : 1 ≤ b) (h : ∀ d ∈ ds, d < b) :
    digitsVal b ds < b ^ ds.length := by
  induction ds with
  | nil => simp [digitsVal]
  | cons d t ih =>
    rw [digitsVal_cons]
    have hd : d < b := h d (by simp)
    have ht : digitsVal b t < b ^ t.length := ih (fun x hx => h x (by simp [hx]))
    have : d * b ^ t.length + digitsVal b t < (d + 1) * b ^ t.length := by nlinarith
    calc d * b ^ t.length + digitsVal b t < (d + 1) * b ^ t.length := this
      _ ≤ b * b ^ t.length := by
          have : d + 1 ≤ b := hd
          exact Nat.mul_le_mul_right _ this
      _ = b ^ (t.length + 1) := by ring
      _ = b ^ (d :: t).length := by simp

theorem digitsVal_natDigits (b n : Nat) (hb : 2 ≤ b) : digitsVal b (natDigits b n) = n := by
  induction n using Nat.strong_induction_on with
  | _ n ih =>
    rw [natDigits_rec]
    by_cases h0 : n = 0
    · simp [h0, digitsVal]
    · rw [if_neg h0, if_neg (by omega)]
      rw [digitsVal_snoc, ih (n / b) (Nat.div_lt_self (by omega) (by omega)),
        Nat.mul_comm (n / b) b]
      exact Nat.div_add_mod n b

theorem natDigits_lt_base (b n : Nat) (hb : 2 ≤ b) : ∀ d ∈ natDigits b n, d < b := by
  induction n using Nat.strong_induction_on with
  | _ n ih =>
    rw [natDigits_rec]
    by_cases h0 : n = 0
    · simp [h0]
    · rw [if_neg h0, if_neg (by omega)]
      intro d hd
      rcases List.mem_append.mp hd with h | h
      · exact ih (n / b) (Nat.div_lt_self (by omega) (by omega)) d h
      · have : d = n % b := by simpa using h
        subst this
        exact Nat.mod_lt _ (by omega)

theorem natDigits_head_ne_zero (b n : Nat) (hb : 2 ≤ b) (hn : n ≠ 0) :
    ∃ d t, natDigits b n = d :: t ∧ d ≠ 0 := by
  induction n using Nat.strong_induction_on with
  | _ n ih =>
    rw [natDigits_rec, if_neg hn, if_neg (by omega)]
    by_cases hsmall : n / b = 0
    · have hnb : n < b := (Nat.div_eq_zero_iff (by omega)).mp hsmall
      refine ⟨n % b, [], ?_, ?_⟩
      · rw [hsmall, natDigits_rec]
        simp
      · have : n % b = n := Nat.mod_eq_of_lt hnb
        omega
    · obtain ⟨d, t, hdt, hd⟩ := ih (n / b) (Nat.div_lt_self (by omega) (by omega)) hsmall
      exact ⟨d, t ++ [n % b], by rw [hdt]; rfl, hd⟩

theorem natDigits_inv (b : Nat) (hb : 2 ≤ b) :
    ∀ ds : List Nat, (∀ d ∈ ds, d < b) → ds.head? ≠ some 0 →
      natDigits b (digitsVal b ds) = ds := by
  intro ds
  induction ds using List.reverseRecOn with
  | nil => intro _ _; rfl
  | append_singleton t d ih =>
    intro hlt hhead
    rw [digitsVal_snoc]
    have hd : d < b := hlt d (by simp)
    cases t with
    | nil =>
      simp only [digitsVal, List.foldl_nil, Nat.zero_mul, Nat.zero_add]
      have hd0 : d ≠ 0 := by
        intro h
        exact hhead (by simp [h])
      rw [natDigits_rec, if_neg hd0, if_neg (by omega)]
      rw [Nat.div_eq_of_lt hd, natDigits_rec]
      simp [Nat.mod_eq_of_lt hd]
    | cons e t' =>
      have he : e ≠ 0 := by
        intro h
        exact hhead (by simp [h])
      have hpos : 1 ≤ digitsVal b (e :: t') := by
        rw [digitsVal_cons]
        have : 1 ≤ e := by omega
        have hp : 1 ≤ b ^ t'.length := Nat.one_le_pow _ _ (by omega)
        nlinarith
      have hn0 : digitsVal b (e :: t') * b + d ≠ 0 := by
        have : b ≤ digitsVal b (e :: t') * b := by nlinarith
        omega
      rw [natDigits_rec, if_neg hn0, if_neg (by omega)]
      have hdiv : (digitsVal b (e :: t') * b + d) / b = digitsVal b (e :: t') := by
        rw [Nat.mul_comm (digitsVal b (e :: t')) b, Nat.mul_add_div (by omega : 0 < b),
          Nat.div_eq_of_lt hd]
        omega
      have hmod : (digitsVal b (e :: t') * b + d) % b = d := by
        rw [Nat.mul_comm (digitsVal b (e :: t')) b, Nat.mul_add_mod]
        exact Nat.mod_eq_of_lt hd
      have hsub : ∀ x ∈ e :: t', x < b := by
        intro x hx
        refine hlt x ?_
        rcases List.mem_cons.mp hx with rfl | h
        · exact List.mem_cons_self _ _
        · exact List.mem_cons_of_mem _ (List.mem_append_left _ h)
      rw [hdiv, hmod, ih hsub (by simpa using hhead)]

/-! ## Infrastructure lemmas: base58 round trip -/

theorem b58Index_b58Char : ∀ d, d < 58 → b58Index (b58Char d) = some d := by decide

theorem b58Char_ne_one : ∀ d, d < 58 → d ≠ 0 → b58Char d ≠ '1' := by decide

theorem b58Indexes_map (ds : List Nat) (h : ∀ d ∈ ds, d < 58) :
    b58Indexes (ds.map b58Char) = some ds := by
  induction ds with
  | nil => rfl
  | cons d t ih =>
    have hd : b58Index (b58Char d) = some d := b58Index_b58Char d (h d (by simp))
    have ht : b58Indexes (t.map b58Char) = some t := ih (fun x hx => h x (by simp [hx]))
    show b58Indexes (b58Char d :: t.map b58Char) = _
    simp only [b58Indexes, hd, ht]

theorem b58Indexes_encode (k : Nat) (ds : List Nat) (h : ∀ d ∈ ds, d < 58) :
    b58Indexes (List.replicate k '1' ++ ds.map b58Char) = some (List.replicate k 0 ++ ds) := by
  induction k with
  | zero => simpa using b58Indexes_map ds h
  | succ m ih =>
    show b58Indexes ('1' :: (List.replicate m '1' ++ ds.map b58Char)) = _
    simp only [b58Indexes, ih]
    rfl

theorem leadChars_replicate_append (k : Nat) (l : Str) :
    leadChars '1' (List.replicate k '1' ++ l) = k + leadChars '1' l := by
  induction k with
  | zero => simp
  | succ m ih =>
    show (if ('1' : Char) = '1' then leadChars '1' (List.replicate m '1' ++ l) + 1 else 0) = _
    rw [if_pos rfl, ih]
    omega

theorem leadChars_head_ne (c : Char) (t : Str) (h : c ≠ '1') : leadChars '1' (c :: t) = 0 := by
  simp [leadChars, h]

theorem leadZeros_split : ∀ l : List Nat,
    List.replicate (leadZeros l) 0 ++ l.drop (leadZeros l) = l ∧
      (l.drop (leadZeros l)).head? ≠ some 0 := by
  intro l
  induction l with
  | nil => exact ⟨rfl, by simp⟩
  | cons x t ih =>
    by_cases hx : x = 0
    · subst hx
      have h1 : leadZeros (0 :: t) = leadZeros t + 1 := by simp [leadZeros]
      refine ⟨?_, ?_⟩
      · rw [h1]
        show List.replicate (leadZeros t + 1) 0 ++ t.drop (leadZeros t) = 0 :: t
        rw [List.replicate_succ]
        simpa using ih.1
      · rw [h1]
        simpa using ih.2
    · have h1 : leadZeros (x :: t) = 0 := by simp [leadZeros, hx]
      rw [h1]
      exact ⟨rfl, by simpa using hx⟩

theorem natDigits_head_cons_ne_zero (b n d : Nat) (t : List Nat) (hb : 2 ≤ b)
    (hdt : natDigits b n = d :: t) : d ≠ 0 := by
  by_cases hzero : n = 0
  · rw [hzero, natDigits_rec] at hdt
    simp at hdt
  · obtain ⟨d', t', hdt', hd'⟩ := natDigits_head_ne_zero b n hb hzero
    rw [hdt] at hdt'
    have : d = d' := (List.cons.injEq _ _ _ _ ▸ hdt').1
    rwa [this]

theorem bs58_roundtrip (bytes : List Byte) (h : ∀ x ∈ bytes, x < 256) :
    bs58decode (bs58encode bytes) = some bytes := by
  obtain ⟨hsplit, hhead⟩ := leadZeros_split bytes
  have hN : digitsVal 256 bytes = digitsVal 256 (bytes.drop (leadZeros bytes)) := by
    conv_lhs => rw [← hsplit]
    rw [digitsVal_append, digitsVal_replicate_zero]
    simp
  have hds58 : ∀ d ∈ natDigits 58 (digitsVal 256 bytes), d < 58 :=
    natDigits_lt_base 58 _ (by omega)
  have hidx : b58Indexes (bs58encode bytes) =
      some (List.replicate (leadZeros bytes) 0 ++ natDigits 58 (digitsVal 256 bytes)) :=
    b58Indexes_encode (leadZeros bytes) _ hds58
  have hlead : leadChars '1' (bs58encode bytes) = leadZeros bytes := by
    show leadChars '1' (List.replicate (leadZeros bytes) '1' ++
      (natDigits 58 (digitsVal 256 bytes)).map b58Char) = _
    rw [leadChars_replicate_append]
    rcases hds0 : natDigits 58 (digitsVal 256 bytes) with _ | ⟨d, t⟩
    · simp [leadChars]
    · have hne : d ≠ 0 := natDigits_head_cons_ne_zero 58 _ d t (by omega) hds0
      have hd58 : d < 58 := hds58 d (by rw [hds0]; simp)
      show leadZeros bytes + leadChars '1' (b58Char d :: t.map b58Char) = _
      rw [leadChars_head_ne _ _ (b58Char_ne_one d hd58 hne)]
      omega
  have hval : digitsVal 58 (List.replicate (leadZeros bytes) 0 ++
      natDigits 58 (digitsVal 256 bytes)) = digitsVal 256 bytes := by
    rw [digitsVal_append, digitsVal_replicate_zero, digitsVal_natDigits 58 _ (by omega)]
    simp
  have hback : natDigits 256 (digitsVal 256 (bytes.drop (leadZeros bytes))) =
      bytes.drop (leadZeros bytes) := by
    refine natDigits_inv 256 (by omega) _ ?_ hhead
    intro d hd
    exact h d (List.mem_of_mem_drop hd)
  have hdec : bs58decode (bs58encode bytes) =
      some (List.replicate (leadChars '1' (bs58encode bytes)) 0 ++
        natDigits 256 (digitsVal 58 (List.replicate (leadZeros bytes) 0 ++
          natDigits 58 (digitsVal 256 bytes)))) := by
    unfold bs58decode
    rw [hidx]
  rw [hdec, hlead, hval, hN, hback, hsplit]

/-! ## Infrastructure lemmas: UTF-8 round trip -/

theorem char_toNat_lt (c : Char) : c.toNat < 1114112 := by
  have heq : c.toNat = c.val.toNat := rfl
  have h := c.valid
  rcases h with h | ⟨_, h⟩
  · have : c.val.toNat < 55296 := h
    omega
  · have : c.val.toNat < 1114112 := h
    omega

theorem utf8Decode_cons_eq (b : Nat) (rest : List Byte) :
    utf8Decode (b :: rest) =
      (if b < 128 then (utf8Decode rest).map (fun s => Char.ofNat b :: s)
      else if b < 192 then none
      else if b < 224 then
        match rest with
        | b2 :: rest2 =>
          if 128 ≤ b2 ∧ b2 < 192 then
            (utf8Decode rest2).map (fun s => Char.ofNat ((b - 192) * 64 + (b2 - 128)) :: s)
          else none
        | _ => none
      else if b < 240 then
        match rest with
        | b2 :: b3 :: rest3 =>
          if (128 ≤ b2 ∧ b2 < 192) ∧ (128 ≤ b3 ∧ b3 < 192) then
            (utf8Decode rest3).map
              (fun s => Char.ofNat ((b - 224) * 4096 + (b2 - 128) * 64 + (b3 - 128)) :: s)
          else none
        | _ => none
      else if b < 248 then
        match rest with
        | b2 :: b3 :: b4 :: rest4 =>
          if (128 ≤ b2 ∧ b2 < 192) ∧ (128 ≤ b3 ∧ b3 < 192) ∧ (128 ≤ b4 ∧ b4 < 192) then
            (utf8Decode rest4).map
              (fun s =>
                Char.ofNat ((b - 240) * 262144 + (b2 - 128) * 4096 + (b3 - 128) * 64 +
                  (b4 - 128)) :: s)
          else none
        | _ => none
      else none) := by
  cases rest with
  | nil => rfl
  | cons b2 r2 =>
    cases r2 with
    | nil => rfl
    | cons b3 r3 =>
      cases r3 with
      | nil => rfl
      | cons b4 r4 => rfl

theorem utf8Decode_encodeChar (c : Char) (rest : List Byte) :
    utf8Decode (utf8EncodeChar c ++ rest) = (utf8Decode rest).map (fun s => c :: s) := by
  have hval : c.toNat < 1114112 := char_toNat_lt c
  by_cases h1 : c.toNat < 128
  · have henc : utf8EncodeChar c = [c.toNat] := by
      unfold utf8EncodeChar
      rw [if_pos h1]
    rw [henc]
    show utf8Decode (c.toNat :: rest) = _
    rw [utf8Decode_cons_eq, if_pos h1, Char.ofNat_toNat]
  · by_cases h2 : c.toNat < 2048
    · have henc : utf8EncodeChar c = [192 + c.toNat / 64, 128 + c.toNat % 64] := by
        unfold utf8EncodeChar
        rw [if_neg h1, if_pos h2]
      rw [henc]
      show utf8Decode ((192 + c.toNat / 64) :: (128 + c.toNat % 64) :: rest) = _
      rw [utf8Decode_cons_eq, if_neg (by omega), if_neg (by omega), if_pos (by omega)]
      show (if 128 ≤ 128 + c.toNat % 64 ∧ 128 + c.toNat % 64 < 192 then
          (utf8Decode rest).map (fun s =>
            Char.ofNat ((192 + c.toNat / 64 - 192) * 64 + (128 + c.toNat % 64 - 128)) :: s)
        else none) = _
      rw [if_pos (by omega)]
      have harg : (192 + c.toNat / 64 - 192) * 64 + (128 + c.toNat % 64 - 128) = c.toNat := by
        omega
      rw [harg, Char.ofNat_toNat]
    · by_cases h3 : c.toNat < 65536
      · have henc : utf8EncodeChar c =
            [224 + c.toNat / 4096, 128 + c.toNat / 64 % 64, 128 + c.toNat % 64] := by
          unfold utf8EncodeChar
          rw [if_neg h1, if_neg h2, if_pos h3]
        rw [henc]
        show utf8Decode ((224 + c.toNat / 4096) :: (128 + c.toNat / 64 % 64) ::
          (128 + c.toNat % 64) :: rest) = _
        rw [utf8Decode_cons_eq, if_neg (by omega), if_neg (by omega), if_neg (by omega),
          if_pos (by omega)]
        show (if (128 ≤ 128 + c.toNat / 64 % 64 ∧ 128 + c.toNat / 64 % 64 < 192) ∧
            (128 ≤ 128 + c.toNat % 64 ∧ 128 + c.toNat % 64 < 192) then
          (utf8Decode rest).map (fun s =>
            Char.ofNat ((224 + c.toNat / 4096 - 224) * 4096 +
              (128 + c.toNat / 64 % 64 - 128) * 64 + (128 + c.toNat % 64 - 128)) :: s)
          else none) = _
        rw [if_pos (by constructor <;> constructor <;> omega)]
        have harg : (224 + c.toNat / 4096 - 224) * 4096 + (128 + c.toNat / 64 % 64 - 128) * 64 +
            (128 + c.toNat % 64 - 128) = c.toNat := by
          omega
        rw [harg, Char.ofNat_toNat]
      · have henc : utf8EncodeChar c =
            [240 + c.toNat / 262144, 128 + c.toNat / 4096 % 64, 128 + c.toNat / 64 % 64,
              128 + c.toNat % 64] := by
          unfold utf8EncodeChar
          rw [if_neg h1, if_neg h2, if_neg h3]
        rw [henc]
        show utf8Decode ((240 + c.toNat / 262144) :: (128 + c.toNat / 4096 % 64) ::
          (128 + c.toNat / 64 % 64) :: (128 + c.toNat % 64) :: rest) = _
        rw [utf8Decode_cons_eq, if_neg (by omega), if_neg (by omega), if_neg (by omega),
          if_neg (by omega), if_pos (by omega)]
        show (if (128 ≤ 128 + c.toNat / 4096 % 64 ∧ 128 + c.toNat / 4096 % 64 < 192) ∧
            (128 ≤ 128 + c.toNat / 64 % 64 ∧ 128 + c.toNat / 64 % 64 < 192) ∧
            (128 ≤ 128 + c.toNat % 64 ∧ 128 + c.toNat % 64 < 192) then
          (utf8Decode rest).map (fun s =>
            Char.ofNat ((240 + c.toNat / 262144 - 240) * 262144 +
              (128 + c.toNat / 4096 % 64 - 128) * 4096 + (128 + c.toNat / 64 % 64 - 128) * 64 +
              (128 + c.toNat % 64 - 128)) :: s)
          else none) = _
        rw [if_pos (by refine ⟨⟨?_, ?_⟩, ⟨?_, ?_⟩, ?_, ?_⟩ <;> omega)]
        have harg : (240 + c.toNat / 262144 - 240) * 262144 +
            (128 + c.toNat / 4096 % 64 - 128) * 4096 + (128 + c.toNat / 64 % 64 - 128) * 64 +
            (128 + c.toNat % 64 - 128) = c.toNat := by
          omega
        rw [harg, Char.ofNat_toNat]

theorem utf8_roundtrip (s : Str) : utf8Decode (utf8Encode s) = some s := by
  induction s with
  | nil => rfl
  | cons c t ih =>
    have h : utf8Encode (c :: t) = utf8EncodeChar c ++ utf8Encode t := by
      simp [utf8Encode]
    rw [h, utf8Decode_encodeChar, ih]
    rfl

/-! ## Infrastructure lemmas: JSON parse inverts JSON stringify -/

theorem isDigitChar_decChar : ∀ d, d < 10 → isDigitChar (decChar d) = true := by decide

theorem decChar_val : ∀ d, d < 10 → (decChar d).toNat - 48 = d := by decide

theorem parseHexDigit_hexChar : ∀ d, d < 16 → parseHexDigit (hexChar d) = some d := by decide

theorem takeDigits_not_digit (s : Str) (h : headNotDigit s = true) : takeDigits s = ([], s) := by
  cases s with
  | nil => rfl
  | cons c t =>
    have hc : isDigitChar c = false := by
      simpa [headNotDigit] using h
    simp [takeDigits, hc]

theorem takeDigits_map_decChar (ds : List Nat) (h : ∀ d ∈ ds, d < 10) (rest : Str)
    (hrest : headNotDigit rest = true) : takeDigits (ds.map decChar ++ rest) = (ds, rest) := by
  induction ds with
  | nil => simpa using takeDigits_not_digit rest hrest
  | cons d t ih =>
    have hd : d < 10 := h d (by simp)
    show takeDigits (decChar d :: (t.map decChar ++ rest)) = _
    simp only [takeDigits, isDigitChar_decChar d hd, if_pos]
    rw [ih (fun x hx => h x (by simp [hx]))]
    simp [decChar_val d hd]

theorem parseNatNum_natToChars (m : Nat) (rest : Str) (h : headNotDigit rest = true) :
    parseNatNum (natToChars m ++ rest) = some (m, rest) := by
  by_cases hm : m = 0
  · subst hm
    have h0 : natToChars 0 = [0].map decChar := rfl
    rw [h0]
    unfold parseNatNum
    rw [takeDigits_map_decChar [0] (by simp) rest h]
    rfl
  · have hne : natToChars m = (natDigits 10 m).map decChar := by
      unfold natToChars
      rw [if_neg hm]
    obtain ⟨d, t, hdt, _⟩ := natDigits_head_ne_zero 10 m (by omega) hm
    rw [hne]
    unfold parseNatNum
    rw [takeDigits_map_decChar _ (natDigits_lt_base 10 m (by omega)) rest h, hdt]
    show some (digitsVal 10 (d :: t), rest) = some (m, rest)
    rw [← hdt, digitsVal_natDigits 10 m (by omega)]

theorem escString_cons (c : Char) (s : Str) :
    escString (c :: s) = escapeChar c ++ escString s := by
  simp [escString]

theorem psbF_escape : ∀ (s : Str) (fuel : Nat) (rest : Str),
    (escString s ++ '"' :: rest).length ≤ fuel →
    parseStringBodyF fuel (escString s ++ '"' :: rest) = some (s, rest) := by
  intro s
  induction s with
  | nil =>
    intro fuel rest hf
    cases fuel with
    | zero => simp [escString] at hf
    | succ f =>
      show parseStringBodyF (f + 1) ('"' :: rest) = some ([], rest)
      rfl
  | cons c s' ih =>
    intro fuel rest hf
    rw [escString_cons, List.append_assoc] at hf ⊢
    have hlen : (escString s' ++ '"' :: rest).length ≥ 1 := by
      simp [List.length_append]
      omega
    by_cases h1 : c = '"'
    · subst h1
      have he : escapeChar '"' = ['\\', '"'] := rfl
      rw [he] at hf ⊢
      cases fuel with
      | zero => simp at hf
      | succ f =>
        show parseStringBodyF (f + 1) ('\\' :: '"' :: (escString s' ++ '"' :: rest)) = _
        have hred : parseStringBodyF (f + 1) ('\\' :: '"' :: (escString s' ++ '"' :: rest)) =
            (parseStringBodyF f (escString s' ++ '"' :: rest)).map
              (fun p => ('"' :: p.1, p.2)) := rfl
        rw [hred, ih f rest (by simp at hf ⊢; omega)]
        rfl
    · by_cases h2 : c = '\\'
      · subst h2
        have he : escapeChar '\\' = ['\\', '\\'] := rfl
        rw [he] at hf ⊢
        cases fuel with
        | zero => simp at hf
        | succ f =>
          simp only [List.cons_append, List.nil_append]
          have hred : parseStringBodyF (f + 1) ('\\' :: '\\' :: (escString s' ++ '"' :: rest)) =
              (parseStringBodyF f (escString s' ++ '"' :: rest)).map
                (fun p => ('\\' :: p.1, p.2)) := rfl
          rw [hred, ih f rest (by simp at hf ⊢; omega)]
          rfl
      · by_cases h3 : c.toNat = 8
        · have he : escapeChar c = ['\\', 'b'] := by
            unfold escapeChar
            rw [if_neg h1, if_neg h2, if_pos h3]
          rw [he] at hf ⊢
          cases fuel with
          | zero => simp at hf
          | succ f =>
            simp only [List.cons_append, List.nil_append]
            have hred : parseStringBodyF (f + 1) ('\\' :: 'b' :: (escString s' ++ '"' :: rest)) =
                (parseStringBodyF f (escString s' ++ '"' :: rest)).map
                  (fun p => (Char.ofNat 8 :: p.1, p.2)) := rfl
            rw [hred, ih f rest (by simp at hf ⊢; omega)]
            have hc : Char.ofNat 8 = c := by
              rw [← h3, Char.ofNat_toNat]
            rw [hc]
            rfl
        · by_cases h4 : c.toNat = 9
          · have he : escapeChar c = ['\\', 't'] := by
              unfold escapeChar
              rw [if_neg h1, if_neg h2, if_neg h3, if_pos h4]
            rw [he] at hf ⊢
            cases fuel with
            | zero => simp at hf
            | succ f =>
              simp only [List.cons_append, List.nil_append]
              have hred : parseStringBodyF (f + 1)
                  ('\\' :: 't' :: (escString s' ++ '"' :: rest)) =
                  (parseStringBodyF f (escString s' ++ '"' :: rest)).map
                    (fun p => (Char.ofNat 9 :: p.1, p.2)) := rfl
              rw [hred, ih f rest (by simp at hf ⊢; omega)]
              have hc : Char.ofNat 9 = c := by
                rw [← h4, Char.ofNat_toNat]
              rw [hc]
              rfl
          · by_cases h5 : c.toNat = 10
            · have he : escapeChar c = ['\\', 'n'] := by
                unfold escapeChar
                rw [if_neg h1, if_neg h2, if_neg h3, if_neg h4, if_pos h5]
              rw [he] at hf ⊢
              cases fuel with
              | zero => simp at hf
              | succ f =>
                simp only [List.cons_append, List.nil_append]
                have hred : parseStringBodyF (f + 1)
                    ('\\' :: 'n' :: (escString s' ++ '"' :: rest)) =
                    (parseStringBodyF f (escString s' ++ '"' :: rest)).map
                      (fun p => (Char.ofNat 10 :: p.1, p.2)) := rfl
                rw [hred, ih f rest (by simp at hf ⊢; omega)]
                have hc : Char.ofNat 10 = c := by
                  rw [← h5, Char.ofNat_toNat]
                rw [hc]
                rfl
            · by_cases h6 : c.toNat = 12
              · have he : escapeChar c = ['\\', 'f'] := by
                  unfold escapeChar
                  rw [if_neg h1, if_neg h2, if_neg h3, if_neg h4, if_neg h5, if_pos h6]
                rw [he] at hf ⊢
                cases fuel with
                | zero => simp at hf
                | succ f =>
                  simp only [List.cons_append, List.nil_append]
                  have hred : parseStringBodyF (f + 1)
                      ('\\' :: 'f' :: (escString s' ++ '"' :: rest)) =
                      (parseStringBodyF f (escString s' ++ '"' :: rest)).map
                        (fun p => (Char.ofNat 12 :: p.1, p.2)) := rfl
                  rw [hred, ih f rest (by simp at hf ⊢; omega)]
                  have hc : Char.ofNat 12 = c := by
                    rw [← h6, Char.ofNat_toNat]
                  rw [hc]
                  rfl
              · by_cases h7 : c.toNat = 13
                · have he : escapeChar c = ['\\', 'r'] := by
                    unfold escapeChar
                    rw [if_neg h1, if_neg h2, if_neg h3, if_neg h4, if_neg h5, if_neg h6,
                      if_pos h7]
                  rw [he] at hf ⊢
                  cases fuel with
                  | zero => simp at hf
                  | succ f =>
                    simp only [List.cons_append, List.nil_append]
                    have hred : parseStringBodyF (f + 1)
                        ('\\' :: 'r' :: (escString s' ++ '"' :: rest)) =
                        (parseStringBodyF f (escString s' ++ '"' :: rest)).map
                          (fun p => (Char.ofNat 13 :: p.1, p.2)) := rfl
                    rw [hred, ih f rest (by simp at hf ⊢; omega)]
                    have hc : Char.ofNat 13 = c := by
                      rw [← h7, Char.ofNat_toNat]
                    rw [hc]
                    rfl
                · by_cases h8 : c.toNat < 32
                  · have he : escapeChar c =
                        ['\\', 'u', '0', '0', hexChar (c.toNat / 16), hexChar (c.toNat % 16)] := by
                      unfold escapeChar
                      rw [if_neg h1, if_neg h2, if_neg h3, if_neg h4, if_neg h5, if_neg h6,
                        if_neg h7, if_pos h8]
                    rw [he] at hf ⊢
                    cases fuel with
                    | zero => simp at hf
                    | succ f =>
                      simp only [List.cons_append, List.nil_append]
                      have hhi : parseHexDigit (hexChar (c.toNat / 16)) = some (c.toNat / 16) :=
                        parseHexDigit_hexChar _ (by omega)
                      have hlo : parseHexDigit (hexChar (c.toNat % 16)) = some (c.toNat % 16) :=
                        parseHexDigit_hexChar _ (by omega)
                      have hred : parseStringBodyF (f + 1)
                          ('\\' :: 'u' :: '0' :: '0' :: hexChar (c.toNat / 16) ::
                            hexChar (c.toNat % 16) :: (escString s' ++ '"' :: rest)) =
                          (match parseHexDigit '0', parseHexDigit '0',
                              parseHexDigit (hexChar (c.toNat / 16)),
                              parseHexDigit (hexChar (c.toNat % 16)) with
                           | some d1, some d2, some d3, some d4 =>
                             (parseStringBodyF f (escString s' ++ '"' :: rest)).map
                               (fun p =>
                                 (Char.ofNat (d1 * 4096 + d2 * 256 + d3 * 16 + d4) :: p.1, p.2))
                           | _, _, _, _ => none) := rfl
                      rw [hred, hhi, hlo]
                      show (parseStringBodyF f (escString s' ++ '"' :: rest)).map
                          (fun p =>
                            (Char.ofNat (0 * 4096 + 0 * 256 + c.toNat / 16 * 16 + c.toNat % 16) ::
                              p.1, p.2)) = _
                      rw [ih f rest (by simp at hf ⊢; omega)]
                      have harg : 0 * 4096 + 0 * 256 + c.toNat / 16 * 16 + c.toNat % 16 =
                          c.toNat := by omega
                      rw [harg, Char.ofNat_toNat]
                      rfl
                  · have he : escapeChar c = [c] := by
                      unfold escapeChar
                      rw [if_neg h1, if_neg h2, if_neg h3, if_neg h4, if_neg h5, if_neg h6,
                        if_neg h7, if_neg h8]
                    rw [he] at hf ⊢
                    cases fuel with
                    | zero => simp at hf
                    | succ f =>
                      simp only [List.cons_append, List.nil_append]
                      simp only [List.singleton_append, parseStringBodyF]
                      rw [if_neg h1, if_neg h2, if_neg (by omega : ¬c.toNat < 32)]
                      rw [ih f rest (by simp at hf ⊢; omega)]
                      rfl

theorem parseStringBody_escape (s rest : Str) :
    parseStringBody (escString s ++ '"' :: rest) = some (s, rest) :=
  psbF_escape s _ rest (le_refl _)

theorem headIs_cons (a c : Char) (t : Str) : headIs a (c :: t) = (c == a) := rfl

theorem skipWs_cons (c : Char) (t : Str) (h : jsonWs c = false) : skipWs (c :: t) = c :: t := by
  simp [skipWs, h]

theorem jsonWs_decChar : ∀ d, d < 10 → jsonWs (decChar d) = false := by decide

theorem decChar_ne_bracket : ∀ d, d < 10 → (decChar d == ']') = false := by decide

theorem isDigitChar_ne_letters (c : Char) (h : isDigitChar c = true) :
    c ≠ 'n' ∧ c ≠ 't' ∧ c ≠ 'f' ∧ c ≠ '"' ∧ c ≠ '[' ∧ c ≠ '{' ∧ c ≠ '-' := by
  simp only [isDigitChar, Bool.and_eq_true, decide_eq_true_eq] at h
  refine ⟨?_, ?_, ?_, ?_, ?_, ?_, ?_⟩ <;> (intro he; subst he; exact absurd h (by decide))

/-- Head shape of a rendered JSON value: never whitespace, never a closing
bracket. -/
theorem stringify_head (j : Json) :
    ∃ c t, Json.stringify j = c :: t ∧ jsonWs c = false ∧ (c == ']') = false := by
  cases j with
  | jnull => exact ⟨'n', _, rfl, by decide, by decide⟩
  | jbool b => cases b with
    | true => exact ⟨'t', _, rfl, by decide, by decide⟩
    | false => exact ⟨'f', _, rfl, by decide, by decide⟩
  | jstr s => exact ⟨'"', _, rfl, by decide, by decide⟩
  | jarr xs => exact ⟨'[', _, rfl, by decide, by decide⟩
  | jobj fs => exact ⟨'{', _, rfl, by decide, by decide⟩
  | jnum n =>
    show ∃ c t, intToChars n = c :: t ∧ _
    unfold intToChars
    by_cases hneg : n < 0
    · rw [if_pos hneg]
      exact ⟨'-', _, rfl, by decide, by decide⟩
    · rw [if_neg hneg]
      unfold natToChars
      by_cases h0 : n.toNat = 0
      · rw [if_pos h0]
        exact ⟨'0', _, rfl, by decide, by decide⟩
      · rw [if_neg h0]
        obtain ⟨d, t, hdt, _⟩ := natDigits_head_ne_zero 10 n.toNat (by omega) h0
        have hd : d < 10 := natDigits_lt_base 10 n.toNat (by omega) d (by rw [hdt]; simp)
        exact ⟨decChar d, _, by rw [hdt]; rfl, jsonWs_decChar d hd, decChar_ne_bracket d hd⟩

theorem sizeJ_pos (j : Json) : 1 ≤ sizeJ j := by
  cases j <;> simp [sizeJ]

theorem sizeElems_pos (xs : List Json) (h : xs ≠ []) : 1 ≤ sizeElems xs := by
  cases xs with
  | nil => exact absurd rfl h
  | cons x t => simp [sizeElems]; omega

theorem sizeFields_pos (fs : List (Str × Json)) (h : fs ≠ []) : 1 ≤ sizeFields fs := by
  cases fs with
  | nil => exact absurd rfl h
  | cons f t =>
    obtain ⟨k, v⟩ := f
    simp [sizeFields]
    omega

/-- Dispatch of the value parser on a leading decimal digit. -/
theorem parseVal_digit (fuel : Nat) (c : Char) (r : Str) (hdig : isDigitChar c = true) :
    parseVal (fuel + 1) (c :: r) =
      (parseNatNum (c :: r)).map (fun p => (Json.jnum (p.1 : Int), p.2)) := by
  obtain ⟨hn, ht, hf, hq, hb, hc, hm⟩ := isDigitChar_ne_letters c hdig
  have hrange : 48 ≤ c.toNat ∧ c.toNat ≤ 57 := by
    simpa only [isDigitChar, Bool.and_eq_true, decide_eq_true_eq] using hdig
  have hws : jsonWs c = false := by
    have hsp : c ≠ ' ' := by
      intro h
      subst h
      exact absurd hdig (by decide)
    simp only [jsonWs, Bool.or_eq_false_iff, decide_eq_false_iff_not]
    exact ⟨⟨⟨hsp, by omega⟩, by omega⟩, by omega⟩
  simp only [parseVal, skipWs_cons c r hws]
  rw [if_neg hn, if_neg ht, if_neg hf, if_neg hq, if_neg hb, if_neg hc, if_neg hm, if_pos hdig]

/-- Reduction of the member parser at an opening quote. -/
theorem parseMembers_red (g : Nat) (W : Str) :
    parseMembers (g + 1) ('"' :: W) =
      (match parseStringBody W with
       | none => none
       | some (k, r1) =>
         if headIs ':' (skipWs r1) then
           match parseVal g (skipWs r1).tail with
           | none => none
           | some (v, r3) =>
             if headIs ',' (skipWs r3) then
               (parseMembers g (skipWs r3).tail).map (fun p => ((k, v) :: p.1, p.2))
             else if headIs '}' (skipWs r3) then some ([(k, v)], (skipWs r3).tail)
             else none
         else none) := rfl

/-- Main correctness of the JSON parser on rendered output: parseVal,
parseElems and parseMembers invert stringify, stringifyElems and
stringifyFields, given enough fuel. -/
theorem parse_stringify_spec : ∀ fuel : Nat,
    (∀ j rest, sizeJ j ≤ fuel → headNotDigit rest = true →
      parseVal fuel (Json.stringify j ++ rest) = some (j, rest)) ∧
    (∀ xs rest, xs ≠ [] → sizeElems xs ≤ fuel →
      parseElems fuel (stringifyElems xs ++ ']' :: rest) = some (xs, rest)) ∧
    (∀ fs rest, fs ≠ [] → sizeFields fs ≤ fuel →
      parseMembers fuel (stringifyFields fs ++ '}' :: rest) = some (fs, rest)) := by
  intro fuel
  induction fuel with
  | zero =>
    refine ⟨?_, ?_, ?_⟩
    · intro j rest hsz _
      exact absurd hsz (by have := sizeJ_pos j; omega)
    · intro xs rest hne hsz
      exact absurd hsz (by have := sizeElems_pos xs hne; omega)
    · intro fs rest hne hsz
      exact absurd hsz (by have := sizeFields_pos fs hne; omega)
  | succ g ih =>
    obtain ⟨ihA, ihB, ihC⟩ := ih
    refine ⟨?_, ?_, ?_⟩
    · intro j rest hsz hrest
      cases j with
      | jnull => rfl
      | jbool b => cases b <;> rfl
      | jstr s0 =>
        have hs : Json.stringify (.jstr s0) ++ rest = '"' :: (escString s0 ++ '"' :: rest) := by
          show ('"' :: escString s0 ++ ['"']) ++ rest = _
          simp [List.append_assoc]
        rw [hs]
        show (parseStringBody (escString s0 ++ '"' :: rest)).map
          (fun p => (Json.jstr p.1, p.2)) = _
        rw [parseStringBody_escape]
        rfl
      | jnum n =>
        rcases n with m | m'
        · by_cases h0 : m = 0
          · subst h0
            have hs : Json.stringify (.jnum (Int.ofNat 0)) ++ rest = '0' :: rest := rfl
            rw [hs, parseVal_digit g '0' rest (by decide)]
            have hp : parseNatNum ('0' :: rest) = some (0, rest) :=
              parseNatNum_natToChars 0 rest hrest
            rw [hp]
            rfl
          · obtain ⟨d, t', hdt, _⟩ := natDigits_head_ne_zero 10 m (by omega) h0
            have hd10 : d < 10 := natDigits_lt_base 10 m (by omega) d (by rw [hdt]; simp)
            have hs : Json.stringify (.jnum (Int.ofNat m)) ++ rest = natToChars m ++ rest := by
              show intToChars (Int.ofNat m) ++ rest = _
              unfold intToChars
              rw [if_neg (by exact Int.not_lt.mpr (Int.ofNat_nonneg m))]
              rfl
            have hs2 : natToChars m ++ rest = decChar d :: (t'.map decChar ++ rest) := by
              unfold natToChars
              rw [if_neg h0, hdt]
              rfl
            rw [hs, hs2, parseVal_digit g (decChar d) _ (isDigitChar_decChar d hd10), ← hs2,
              parseNatNum_natToChars m rest hrest]
            rfl
        · have hs : Json.stringify (.jnum (Int.negSucc m')) ++ rest =
              '-' :: (natToChars (m' + 1) ++ rest) := by
            show intToChars (Int.negSucc m') ++ rest = _
            unfold intToChars
            rw [if_pos (by exact Int.negSucc_lt_zero m')]
            rfl
          rw [hs]
          show (parseNatNum (natToChars (m' + 1) ++ rest)).map
              (fun p => (Json.jnum (-(p.1 : Int)), p.2)) = _
          rw [parseNatNum_natToChars _ rest hrest]
          show some (Json.jnum (-((m' + 1 : Nat) : Int)), rest) =
            some (Json.jnum (Int.negSucc m'), rest)
          rw [show -((m' + 1 : Nat) : Int) = Int.negSucc m' by
            rw [Int.negSucc_eq]
            simp]
      | jarr xs =>
        cases xs with
        | nil => rfl
        | cons x t =>
          have hsize : sizeElems (x :: t) ≤ g := by
            have h1 : sizeJ (Json.jarr (x :: t)) = 1 + sizeElems (x :: t) := rfl
            omega
          obtain ⟨c₀, t₀, hxc, hws0, hbr0⟩ := stringify_head x
          have hselems : ∃ Z, stringifyElems (x :: t) = Json.stringify x ++ Z := by
            cases t with
            | nil => exact ⟨[], by simp [stringifyElems]⟩
            | cons y t2 => exact ⟨',' :: stringifyElems (y :: t2), rfl⟩
          obtain ⟨Z, hZ⟩ := hselems
          have hs : Json.stringify (.jarr (x :: t)) ++ rest =
              '[' :: (stringifyElems (x :: t) ++ ']' :: rest) := by
            show ('[' :: stringifyElems (x :: t) ++ [']']) ++ rest = _
            simp [List.append_assoc]
          rw [hs]
          show (if headIs ']' (skipWs (stringifyElems (x :: t) ++ ']' :: rest)) = true then
              some (Json.jarr [], (skipWs (stringifyElems (x :: t) ++ ']' :: rest)).tail)
            else (parseElems g (skipWs (stringifyElems (x :: t) ++ ']' :: rest))).map
              (fun p => (Json.jarr p.1, p.2))) = _
          have hcons : stringifyElems (x :: t) ++ ']' :: rest =
              c₀ :: (t₀ ++ (Z ++ ']' :: rest)) := by
            rw [hZ, hxc]
            simp [List.append_assoc]
          rw [hcons, skipWs_cons _ _ hws0, headIs_cons, if_neg (by simp [hbr0]), ← hcons]
          rw [ihB (x :: t) rest (by simp) hsize]
          rfl
      | jobj fs =>
        cases fs with
        | nil => rfl
        | cons f t =>
          obtain ⟨k, v⟩ := f
          have hsize : sizeFields ((k, v) :: t) ≤ g := by
            have h1 : sizeJ (Json.jobj ((k, v) :: t)) = 1 + sizeFields ((k, v) :: t) := rfl
            omega
          have hfh : ∃ Y, stringifyFields ((k, v) :: t) = '"' :: Y := by
            cases t with
            | nil => exact ⟨_, rfl⟩
            | cons f2 t2 => exact ⟨_, rfl⟩
          obtain ⟨Y, hY⟩ := hfh
          have hs : Json.stringify (.jobj ((k, v) :: t)) ++ rest =
              '{' :: (stringifyFields ((k, v) :: t) ++ '}' :: rest) := by
            show ('{' :: stringifyFields ((k, v) :: t) ++ ['}']) ++ rest = _
            simp [List.append_assoc]
          rw [hs]
          show (if headIs '}' (skipWs (stringifyFields ((k, v) :: t) ++ '}' :: rest)) = true then
              some (Json.jobj [], (skipWs (stringifyFields ((k, v) :: t) ++ '}' :: rest)).tail)
            else (parseMembers g (skipWs (stringifyFields ((k, v) :: t) ++ '}' :: rest))).map
              (fun p => (Json.jobj p.1, p.2))) = _
          have hcons : stringifyFields ((k, v) :: t) ++ '}' :: rest =
              '"' :: (Y ++ '}' :: rest) := by
            rw [hY]
            rfl
          rw [hcons, skipWs_cons _ _ (by decide), headIs_cons, if_neg (by decide), ← hcons]
          rw [ihC ((k, v) :: t) rest (by simp) hsize]
          rfl
    · intro xs rest hne hsize
      cases xs with
      | nil => exact absurd rfl hne
      | cons x t =>
        cases t with
        | nil =>
          have hszx : sizeJ x ≤ g := by
            simp [sizeElems] at hsize
            omega
          have hS : stringifyElems [x] ++ ']' :: rest = Json.stringify x ++ ']' :: rest := by
            rfl
          have hA := ihA x (']' :: rest) hszx (by rfl)
          simp only [parseElems]
          rw [hS, hA]
          rfl
        | cons y t2 =>
          have hszx : sizeJ x ≤ g := by
            simp [sizeElems] at hsize
            omega
          have hszt : sizeElems (y :: t2) ≤ g := by
            simp [sizeElems] at hsize ⊢
            omega
          have hS : stringifyElems (x :: y :: t2) ++ ']' :: rest =
              Json.stringify x ++ (',' :: (stringifyElems (y :: t2) ++ ']' :: rest)) := by
            show (Json.stringify x ++ ',' :: stringifyElems (y :: t2)) ++ ']' :: rest = _
            simp [List.append_assoc]
          have hA := ihA x (',' :: (stringifyElems (y :: t2) ++ ']' :: rest)) hszx (by rfl)
          simp only [parseElems]
          rw [hS, hA]
          show (parseElems g (stringifyElems (y :: t2) ++ ']' :: rest)).map
            (fun p => (x :: p.1, p.2)) = _
          rw [ihB (y :: t2) rest (by simp) hszt]
          rfl
    · intro fs rest hne hsize
      cases fs with
      | nil => exact absurd rfl hne
      | cons f t =>
        obtain ⟨k, v⟩ := f
        have hszv : sizeJ v ≤ g := by
          simp [sizeFields] at hsize
          omega
        cases t with
        | nil =>
          have hS : stringifyFields [(k, v)] ++ '}' :: rest =
              '"' :: (escString k ++ '"' :: ':' :: (Json.stringify v ++ '}' :: rest)) := by
            show ('"' :: escString k ++ '"' :: ':' :: Json.stringify v) ++ '}' :: rest = _
            simp [List.append_assoc]
          rw [hS, parseMembers_red,
            parseStringBody_escape k (':' :: (Json.stringify v ++ '}' :: rest))]
          show (match parseVal g (Json.stringify v ++ '}' :: rest) with
            | none => none
            | some (v', r3) =>
              if headIs ',' (skipWs r3) then
                (parseMembers g (skipWs r3).tail).map
                  (fun (p : List (Str × Json) × Str) => ((k, v') :: p.1, p.2))
              else if headIs '}' (skipWs r3) then some ([(k, v')], (skipWs r3).tail)
              else none) = _
          rw [ihA v ('}' :: rest) hszv (by rfl)]
          rfl
        | cons f2 t2 =>
          have hszt : sizeFields (f2 :: t2) ≤ g := by
            simp [sizeFields] at hsize ⊢
            omega
          have hS : stringifyFields ((k, v) :: f2 :: t2) ++ '}' :: rest =
              '"' :: (escString k ++ '"' :: ':' ::
                (Json.stringify v ++ ',' :: (stringifyFields (f2 :: t2) ++ '}' :: rest))) := by
            show (('"' :: escString k ++ '"' :: ':' :: Json.stringify v) ++
              ',' :: stringifyFields (f2 :: t2)) ++ '}' :: rest = _
            simp [List.append_assoc]
          rw [hS, parseMembers_red, parseStringBody_escape k
            (':' :: (Json.stringify v ++ ',' :: (stringifyFields (f2 :: t2) ++ '}' :: rest)))]
          show (match parseVal g
              (Json.stringify v ++ ',' :: (stringifyFields (f2 :: t2) ++ '}' :: rest)) with
            | none => none
            | some (v', r3) =>
              if headIs ',' (skipWs r3) then
                (parseMembers g (skipWs r3).tail).map
                  (fun (p : List (Str × Json) × Str) => ((k, v') :: p.1, p.2))
              else if headIs '}' (skipWs r3) then some ([(k, v')], (skipWs r3).tail)
              else none) = _
          rw [ihA v (',' :: (stringifyFields (f2 :: t2) ++ '}' :: rest)) hszv (by rfl)]
          show (parseMembers g (stringifyFields (f2 :: t2) ++ '}' :: rest)).map
            (fun (p : List (Str × Json) × Str) => ((k, v) :: p.1, p.2)) = _
          rw [ihC (f2 :: t2) rest (by simp) hszt]
          rfl

theorem natToChars_ne_nil (m : Nat) : natToChars m ≠ [] := by
  unfold natToChars
  by_cases h0 : m = 0
  · simp [h0]
  · rw [if_neg h0]
    obtain ⟨d, t, hdt, _⟩ := natDigits_head_ne_zero 10 m (by omega) h0
    rw [hdt]
    simp

mutual

theorem sizeJ_le_len : ∀ j : Json, sizeJ j ≤ (Json.stringify j).length
  | .jnull => by decide
  | .jbool b => by cases b <;> decide
  | .jnum n => by
    have h : Json.stringify (.jnum n) = intToChars n := rfl
    rw [h]
    have h2 : intToChars n ≠ [] := by
      unfold intToChars
      by_cases hn : n < 0
      · simp [hn]
      · rw [if_neg hn]
        exact natToChars_ne_nil _
    have : 1 ≤ (intToChars n).length := by
      cases hi : intToChars n with
      | nil => exact absurd hi h2
      | cons a t => simp
    simpa [sizeJ] using this
  | .jstr s => by simp [sizeJ, Json.stringify]
  | .jarr xs => by
    have h := sizeElems_le_len xs
    have hlen : (Json.stringify (.jarr xs)).length = (stringifyElems xs).length + 2 := by
      show ('[' :: stringifyElems xs ++ [']']).length = _
      simp
    rw [hlen]
    show 1 + sizeElems xs ≤ _
    omega
  | .jobj fs => by
    have h := sizeFields_le_len fs
    have hlen : (Json.stringify (.jobj fs)).length = (stringifyFields fs).length + 2 := by
      show ('{' :: stringifyFields fs ++ ['}']).length = _
      simp
    rw [hlen]
    show 1 + sizeFields fs ≤ _
    omega

theorem sizeElems_le_len : ∀ xs : List Json, sizeElems xs ≤ (stringifyElems xs).length + 1
  | [] => by simp [sizeElems, stringifyElems]
  | [x] => by
    have h := sizeJ_le_len x
    show 1 + sizeJ x + sizeElems [] ≤ (Json.stringify x).length + 1
    simp [sizeElems]
    omega
  | x :: y :: t => by
    have h1 := sizeJ_le_len x
    have h2 := sizeElems_le_len (y :: t)
    show 1 + sizeJ x + sizeElems (y :: t) ≤
      (Json.stringify x ++ ',' :: stringifyElems (y :: t)).length + 1
    simp only [List.length_append, List.length_cons]
    omega

theorem sizeFields_le_len : ∀ fs : List (Str × Json), sizeFields fs ≤ (stringifyFields fs).length + 1
  | [] => by simp [sizeFields, stringifyFields]
  | [(k, v)] => by
    have h := sizeJ_le_len v
    show 1 + sizeJ v + sizeFields [] ≤ ('"' :: escString k ++ '"' :: ':' :: Json.stringify v).length + 1
    simp only [sizeFields, List.length_cons, List.length_append]
    omega
  | (k, v) :: f :: t => by
    have h1 := sizeJ_le_len v
    have h2 := sizeFields_le_len (f :: t)
    show 1 + sizeJ v + sizeFields (f :: t) ≤
      (('"' :: escString k ++ '"' :: ':' :: Json.stringify v) ++
        ',' :: stringifyFields (f :: t)).length + 1
    simp only [List.length_append, List.length_cons]
    omega

end

/-- JSON.parse inverts JSON.stringify. -/
theorem jsonParse_stringify (j : Json) : jsonParse (Json.stringify j) = some j := by
  unfold jsonParse
  have hsz : sizeJ j ≤ (Json.stringify j).length + 1 := by
    have := sizeJ_le_len j
    omega
  have h := (parse_stringify_spec ((Json.stringify j).length + 1)).1 j [] hsz rfl
  rw [List.append_nil] at h
  rw [h]
  rfl

/-- The multicodec JSON codec round-trips. -/
theorem fromMulticodecJson_toMulticodecJson (j : Json) :
    fromMulticodecJson (toMulticodecJson j) = some j := by
  unfold fromMulticodecJson toMulticodecJson
  have hv : varintEncode jsonCodec = [128, 4] := by decide
  rw [hv]
  show (utf8Decode (utf8Encode j.stringify)).bind jsonParse = some j
  rw [utf8_roundtrip]
  show jsonParse (Json.stringify j) = some j
  exact jsonParse_stringify j

/-! ## Infrastructure lemmas: shape of encoded identifiers -/

theorem natDigits_split (b : Nat) (hb : 2 ≤ b) :
    ∀ k n, b ^ k ≤ n →
      ∃ low, low.length = k ∧ natDigits b n = natDigits b (n / b ^ k) ++ low := by
  intro k
  induction k with
  | zero =>
    intro n _
    exact ⟨[], rfl, by simp⟩
  | succ i ih =>
    intro n hn
    have hn1 : n ≠ 0 := by
      have : 1 ≤ b ^ (i + 1) := Nat.one_le_pow _ _ (by omega)
      omega
    have hdivge : b ^ i ≤ n / b := by
      rw [Nat.le_div_iff_mul_le (by omega : 0 < b)]
      calc b ^ i * b = b ^ (i + 1) := by ring
        _ ≤ n := hn
    obtain ⟨low, hlen, heq⟩ := ih (n / b) hdivge
    refine ⟨low ++ [n % b], by simp [hlen], ?_⟩
    rw [natDigits_rec b n, if_neg hn1, if_neg (by omega), heq]
    have hdd : n / b / b ^ i = n / b ^ (i + 1) := by
      rw [Nat.div_div_eq_div_mul]
      congr 1
      ring
    rw [hdd]
    simp [List.append_assoc]

theorem natDigits_len_ge (b k n : Nat) (hb : 2 ≤ b) (h : b ^ k ≤ n) :
    k + 1 ≤ (natDigits b n).length := by
  have hval : digitsVal b (natDigits b n) = n := digitsVal_natDigits b n hb
  have hlt : digitsVal b (natDigits b n) < b ^ (natDigits b n).length :=
    digitsVal_lt b _ (by omega) (natDigits_lt_base b n hb)
  by_contra hcon
  push_neg at hcon
  have hle : (natDigits b n).length ≤ k := by omega
  have : b ^ (natDigits b n).length ≤ b ^ k := Nat.pow_le_pow_right (by omega) hle
  omega

theorem natDigits_len_eq (b k n : Nat) (hb : 2 ≤ b) (hlo : b ^ k ≤ n) (hhi : n < b ^ (k + 1)) :
    (natDigits b n).length = k + 1 := by
  have h1 := natDigits_len_ge b k n hb hlo
  have hn0 : n ≠ 0 := by
    have : 1 ≤ b ^ k := Nat.one_le_pow _ _ (by omega)
    omega
  obtain ⟨d, t, hdt, hd0⟩ := natDigits_head_ne_zero b n hb hn0
  have hval : digitsVal b (natDigits b n) = n := digitsVal_natDigits b n hb
  rw [hdt] at hval h1 ⊢
  simp only [List.length_cons] at h1 ⊢
  by_contra hcon
  have htlen : k + 1 ≤ t.length := by omega
  have hpow : b ^ (k + 1) ≤ b ^ t.length := Nat.pow_le_pow_right (by omega) htlen
  have hge : b ^ t.length ≤ digitsVal b (d :: t) := by
    rw [digitsVal_cons]
    have hd1 : 1 ≤ d := by omega
    nlinarith [Nat.zero_le (digitsVal b t)]
  omega

theorem b58Char_mem : ∀ d, d < 58 → b58Chars.contains (b58Char d) = true := by decide

theorem mem_b58_ne_colon (c : Char) (h : b58Chars.contains c = true) : c ≠ ':' := by
  intro he
  subst he
  exact absurd h (by decide)

/-- Shape of the multibase hash of a document under a 32-byte digest function:
the marker z, then Qm, then exactly 44 further base58 characters. -/
theorem hashDocument_shape (sha : HashFn) (hsha : GoodSha sha) (s : Str) :
    ∃ tail, hashDocument sha s = 'z' :: 'Q' :: 'm' :: tail ∧ tail.length = 44 ∧
      ∀ c ∈ tail, b58Chars.contains c = true := by
  obtain ⟨hlen, hbound⟩ := hsha (utf8Encode s)
  have hmh : multihashSha256 sha (utf8Encode s) = 18 :: 32 :: sha (utf8Encode s) := rfl
  have hD : digitsVal 256 (sha (utf8Encode s)) < 256 ^ 32 := by
    have := digitsVal_lt 256 (sha (utf8Encode s)) (by omega) hbound
    rwa [hlen] at this
  have hN : digitsVal 256 (18 :: 32 :: sha (utf8Encode s)) =
      4640 * 256 ^ 32 + digitsVal 256 (sha (utf8Encode s)) := by
    rw [digitsVal_cons, digitsVal_cons]
    simp only [List.length_cons, hlen]
    ring
  have hlo : 58 ^ 45 ≤ digitsVal 256 (18 :: 32 :: sha (utf8Encode s)) := by
    rw [hN]
    have : (58 : Nat) ^ 45 ≤ 4640 * 256 ^ 32 := by decide
    omega
  have hhi : digitsVal 256 (18 :: 32 :: sha (utf8Encode s)) < 58 ^ 46 := by
    rw [hN]
    have : 4640 * 256 ^ 32 + 256 ^ 32 ≤ 58 ^ 46 := by decide
    omega
  have hqlo : 1378 * 58 ^ 44 ≤ digitsVal 256 (18 :: 32 :: sha (utf8Encode s)) := by
    rw [hN]
    have : (1378 : Nat) * 58 ^ 44 ≤ 4640 * 256 ^ 32 := by decide
    omega
  have hqhi : digitsVal 256 (18 :: 32 :: sha (utf8Encode s)) < 1379 * 58 ^ 44 := by
    rw [hN]
    have : 4640 * 256 ^ 32 + 256 ^ 32 ≤ 1379 * 58 ^ 44 := by decide
    omega
  have hq : digitsVal 256 (18 :: 32 :: sha (utf8Encode s)) / 58 ^ 44 = 1378 := by
    have h1 : 1378 ≤ digitsVal 256 (18 :: 32 :: sha (utf8Encode s)) / 58 ^ 44 :=
      (Nat.le_div_iff_mul_le (by positivity)).mpr hqlo
    have h2 : digitsVal 256 (18 :: 32 :: sha (utf8Encode s)) / 58 ^ 44 < 1379 :=
      Nat.div_lt_of_lt_mul (by linarith [hqhi])
    omega
  obtain ⟨low, hlowlen, hsplit⟩ :=
    natDigits_split 58 (by omega) 44 (digitsVal 256 (18 :: 32 :: sha (utf8Encode s)))
      (le_trans (by decide) hqlo)
  have hlentot : (natDigits 58 (digitsVal 256 (18 :: 32 :: sha (utf8Encode s)))).length = 46 :=
    natDigits_len_eq 58 45 _ (by omega) hlo hhi
  have hpre : natDigits 58 (digitsVal 256 (18 :: 32 :: sha (utf8Encode s))) =
      23 :: 44 :: low := by
    rw [hsplit, hq]
    rfl
  have hall : ∀ d ∈ natDigits 58 (digitsVal 256 (18 :: 32 :: sha (utf8Encode s))), d < 58 :=
    natDigits_lt_base 58 _ (by omega)
  refine ⟨low.map b58Char, ?_, ?_, ?_⟩
  · show 'z' :: bs58encode (multihashSha256 sha (utf8Encode s)) = _
    rw [hmh]
    show 'z' :: (List.replicate (leadZeros (18 :: 32 :: sha (utf8Encode s))) '1' ++
      (natDigits 58 (digitsVal 256 (18 :: 32 :: sha (utf8Encode s)))).map b58Char) = _
    rw [hpre]
    rfl
  · simp [hlowlen]
  · intro c hc
    obtain ⟨d, hd, hdc⟩ := List.mem_map.mp hc
    have hd58 : d < 58 := by
      refine hall d ?_
      rw [hpre]
      simp [hd]
    rw [← hdc]
    exact b58Char_mem d hd58

theorem utf8EncodeChar_lt (c : Char) : ∀ b : Nat, b ∈ utf8EncodeChar c → b < 256 := by
  have h := char_toNat_lt c
  unfold utf8EncodeChar
  by_cases h1 : c.toNat < 128
  · simp only [if_pos h1]
    intro b hb
    simp only [List.mem_cons, List.not_mem_nil, or_false] at hb
    subst hb
    omega
  · by_cases h2 : c.toNat < 2048
    · simp only [if_neg h1, if_pos h2]
      intro b hb
      simp only [List.mem_cons, List.not_mem_nil, or_false] at hb
      rcases hb with hb | hb <;> subst hb <;> omega
    · by_cases h3 : c.toNat < 65536
      · simp only [if_neg h1, if_neg h2, if_pos h3]
        intro b hb
        simp only [List.mem_cons, List.not_mem_nil, or_false] at hb
        rcases hb with hb | hb | hb <;> subst hb <;> omega
      · simp only [if_neg h1, if_neg h2, if_neg h3]
        intro b hb
        simp only [List.mem_cons, List.not_mem_nil, or_false] at hb
        rcases hb with hb | hb | hb | hb <;> subst hb <;> omega

theorem utf8Encode_lt (s : Str) : ∀ b : Nat, b ∈ utf8Encode s → b < 256 := by
  intro b hb
  unfold utf8Encode at hb
  obtain ⟨l, hl, hbl⟩ := List.mem_flatten.mp hb
  obtain ⟨c, _, hcl⟩ := List.mem_map.mp hl
  exact utf8EncodeChar_lt c b (hcl ▸ hbl)

theorem utf8Encode_len (s : Str) : s.length ≤ (utf8Encode s).length := by
  induction s with
  | nil => simp [utf8Encode]
  | cons c t ih =>
    have h : utf8Encode (c :: t) = utf8EncodeChar c ++ utf8Encode t := by simp [utf8Encode]
    rw [h, List.length_append]
    have hc : 1 ≤ (utf8EncodeChar c).length := by
      unfold utf8EncodeChar
      by_cases h1 : c.toNat < 128
      · simp [h1]
      · by_cases h2 : c.toNat < 2048
        · simp [h1, h2]
        · by_cases h3 : c.toNat < 65536 <;> simp [h1, h2, h3]
    simp only [List.length_cons]
    omega

theorem toMulticodecJson_lt (d : Json) : ∀ b : Nat, b ∈ toMulticodecJson d → b < 256 := by
  intro b hb
  unfold toMulticodecJson at hb
  rw [show varintEncode jsonCodec = [128, 4] from by decide] at hb
  rcases List.mem_append.mp hb with h | h
  · simp only [List.mem_cons, List.not_mem_nil, or_false] at h
    rcases h with h | h <;> subst h <;> omega
  · exact utf8Encode_lt _ b h

/-- Shape of an encoded document segment: the marker z followed by at least
six base58 characters, and the segment base58-decodes back to the multicodec
bytes. -/
theorem encodeDocument_shape (d : Json) (h2 : 2 ≤ (Json.stringify d).length) :
    ∃ dchars, ClientPeer4.encodeDocument d = 'z' :: dchars ∧ 6 ≤ dchars.length ∧
      (∀ c ∈ dchars, b58Chars.contains c = true) ∧
      bs58decode dchars = some (toMulticodecJson d) := by
  have hbytes : toMulticodecJson d = 128 :: 4 :: utf8Encode (Json.stringify d) := by
    unfold toMulticodecJson
    rw [show varintEncode jsonCodec = [128, 4] from by decide]
    rfl
  have hM : digitsVal 256 (toMulticodecJson d) =
      digitsVal 256 (128 :: 4 :: utf8Encode (Json.stringify d)) := by rw [hbytes]
  have hulen : 2 ≤ (utf8Encode (Json.stringify d)).length :=
    le_trans h2 (utf8Encode_len _)
  have hMlo : 58 ^ 5 ≤ digitsVal 256 (toMulticodecJson d) := by
    rw [hM, digitsVal_cons]
    have hpow : 256 ^ 3 ≤ 256 ^ (4 :: utf8Encode (Json.stringify d)).length := by
      apply Nat.pow_le_pow_right (by omega)
      simp only [List.length_cons]
      omega
    have hc : (58 : Nat) ^ 5 ≤ 128 * 256 ^ 3 := by decide
    nlinarith [Nat.zero_le (digitsVal 256 (4 :: utf8Encode (Json.stringify d)))]
  have hlen6 : 6 ≤ (natDigits 58 (digitsVal 256 (toMulticodecJson d))).length :=
    natDigits_len_ge 58 5 _ (by omega) hMlo
  have hlead : leadZeros (toMulticodecJson d) = 0 := by
    rw [hbytes]
    rfl
  have henc : bs58encode (toMulticodecJson d) =
      (natDigits 58 (digitsVal 256 (toMulticodecJson d))).map b58Char := by
    unfold bs58encode
    rw [hlead]
    rfl
  refine ⟨bs58encode (toMulticodecJson d), rfl, ?_, ?_, ?_⟩
  · rw [henc]
    simpa using hlen6
  · intro c hc
    rw [henc] at hc
    obtain ⟨x, hx, hxc⟩ := List.mem_map.mp hc
    have hx58 : x < 58 := natDigits_lt_base 58 _ (by omega) x hx
    rw [← hxc]
    exact b58Char_mem x hx58
  · exact bs58_roundtrip _ (toMulticodecJson_lt d)

theorem stringify_jobj_len (fs : List (Str × Json)) :
    2 ≤ (Json.stringify (.jobj fs)).length := by
  show 2 ≤ ('{' :: stringifyFields fs ++ ['}']).length
  simp

/-- Decomposition of a client-encoded identifier into its syntactic parts. -/
theorem encode_decompose (sha : HashFn) (hsha : GoodSha sha) (d : Json)
    (h2 : 2 ≤ (Json.stringify d).length) :
    ∃ hchars dchars,
      ClientPeer4.encode sha d =
        "did:peer:4zQm".toList ++ hchars ++ ':' :: 'z' :: dchars ∧
      hchars.length = 44 ∧ (∀ c ∈ hchars, b58Chars.contains c = true) ∧
      6 ≤ dchars.length ∧ (∀ c ∈ dchars, b58Chars.contains c = true) ∧
      hashDocument sha (ClientPeer4.encodeDocument d) = 'z' :: 'Q' :: 'm' :: hchars ∧
      ClientPeer4.encodeDocument d = 'z' :: dchars ∧
      bs58decode dchars = some (toMulticodecJson d) := by
  obtain ⟨tail, hhash, htlen, htmem⟩ := hashDocument_shape sha hsha (ClientPeer4.encodeDocument d)
  obtain ⟨dchars, hdoc, hdlen, hdmem, hdec⟩ := encodeDocument_shape d h2
  refine ⟨tail, dchars, ?_, htlen, htmem, hdlen, hdmem, hhash, hdoc, hdec⟩
  show "did:peer:4".toList ++ hashDocument sha (ClientPeer4.encodeDocument d) ++
    ':' :: ClientPeer4.encodeDocument d = _
  rw [hhash, hdoc]
  rfl

theorem take_len_append (a b : Str) : (a ++ b).take a.length = a := by
  simp

theorem drop_len_append (a b : Str) : (a ++ b).drop a.length = b := by
  simp

theorem strStarts_append (a b : Str) : strStarts a (a ++ b) = true := by
  simp [strStarts]

theorem splitChar_no_sep (sep : Char) :
    ∀ s : Str, (∀ c ∈ s, c ≠ sep) → splitChar sep s = [s]
  | [], _ => rfl
  | x :: xs, h => by
    have hx : x ≠ sep := h x (by simp)
    have ih := splitChar_no_sep sep xs (fun c hc => h c (by simp [hc]))
    simp [splitChar, hx, ih]

theorem splitChar_append (sep : Char) :
    ∀ a : Str, ∀ rest : Str, (∀ c ∈ a, c ≠ sep) →
      splitChar sep (a ++ sep :: rest) = a :: splitChar sep rest
  | [], rest, _ => by simp [splitChar]
  | x :: a', rest, h => by
    have hx : x ≠ sep := h x (by simp)
    have ih := splitChar_append sep a' rest (fun c hc => h c (by simp [hc]))
    simp [splitChar, hx, ih]

theorem joinSep_single (sep : Char) (a : Str) : joinSep sep [a] = a := rfl

/-! ### Object field lemmas -/

theorem beqs_true {a b : Str} (h : a = b) : (a == b) = true := beq_iff_eq.mpr h

theorem beqs_false {a b : Str} (h : a ≠ b) : (a == b) = false := beq_eq_false_iff_ne.mpr h

theorem lookup_cons_eq (k k2 : Str) (v2 : Json) (t : List (Str × Json)) (h : k = k2) :
    ((k2, v2) :: t).lookup k = some v2 := by
  simp only [List.lookup, beqs_true h]

theorem lookup_cons_ne (k k2 : Str) (v2 : Json) (t : List (Str × Json)) (h : k ≠ k2) :
    ((k2, v2) :: t).lookup k = t.lookup k := by
  simp only [List.lookup, beqs_false h]

theorem lookup_setFieldList_self (k : Str) (v : Json) :
    ∀ fs : List (Str × Json), (setFieldList k v fs).lookup k = some v
  | [] => by simp [setFieldList, List.lookup]
  | (k', v') :: t => by
    by_cases h : k' = k
    · simp only [setFieldList, if_pos h]
      exact lookup_cons_eq k k' v t (h.symm)
    · have ih := lookup_setFieldList_self k v t
      simp only [setFieldList, if_neg h]
      rw [lookup_cons_ne k k' v' _ (fun e => h e.symm)]
      exact ih

theorem lookup_setFieldList_ne (k k' : Str) (v : Json) (h : k' ≠ k) :
    ∀ fs : List (Str × Json), (setFieldList k v fs).lookup k' = fs.lookup k'
  | [] => by
    simp only [setFieldList, List.lookup, beqs_false h]
  | (k2, v2) :: t => by
    by_cases h2 : k2 = k
    · have hne : k' ≠ k2 := fun e => h (e.trans h2)
      simp only [setFieldList, if_pos h2]
      rw [lookup_cons_ne k' k2 v t hne, lookup_cons_ne k' k2 v2 t hne]
    · have ih := lookup_setFieldList_ne k k' v h t
      simp only [setFieldList, if_neg h2]
      by_cases h3 : k' = k2
      · rw [lookup_cons_eq k' k2 v2 _ h3, lookup_cons_eq k' k2 v2 _ h3]
      · rw [lookup_cons_ne k' k2 v2 _ h3, lookup_cons_ne k' k2 v2 _ h3]
        exact ih

theorem getField_setField_self (fs : List (Str × Json)) (k : Str) (v : Json) :
    (Json.setField (.jobj fs) k v).getField k = some v := by
  simp [Json.setField, Json.getField, lookup_setFieldList_self]

theorem getField_some_jobj (doc : Json) (k : Str) (v : Json) (h : doc.getField k = some v) :
    ∃ fs, doc = .jobj fs := by
  cases doc with
  | jobj fs => exact ⟨fs, rfl⟩
  | jnull => exact absurd h (by simp [Json.getField])
  | jbool b => exact absurd h (by simp [Json.getField])
  | jnum n => exact absurd h (by simp [Json.getField])
  | jstr s => exact absurd h (by simp [Json.getField])
  | jarr xs => exact absurd h (by simp [Json.getField])

theorem getField_mapFieldIfArr_self (doc : Json) (k : Str) (f : Json → Json) (xs : List Json)
    (h : doc.getField k = some (.jarr xs)) :
    (mapFieldIfArr doc k f).getField k = some (.jarr (xs.map f)) := by
  unfold mapFieldIfArr
  rw [h]
  obtain ⟨fs, rfl⟩ := getField_some_jobj doc k _ h
  exact getField_setField_self fs k _

theorem getField_mapFieldIfArr_none (doc : Json) (k : Str) (f : Json → Json)
    (h : doc.getField k = none) : mapFieldIfArr doc k f = doc := by
  unfold mapFieldIfArr
  rw [h]

theorem lookup_filter_ne (k : Str) :
    ∀ fs : List (Str × Json), (fs.filter (fun kv => !(kv.1 == k))).lookup k = none
  | [] => by simp [List.lookup]
  | (k2, v2) :: t => by
    by_cases h : k2 = k
    · simp only [List.filter_cons, beqs_true h, Bool.not_true, Bool.false_eq_true, if_false]
      exact lookup_filter_ne k t
    · simp only [List.filter_cons, beqs_false h, Bool.not_false, if_true]
      rw [lookup_cons_ne k k2 v2 _ (fun e => h e.symm)]
      exact lookup_filter_ne k t

theorem getField_removeField_self (fs : List (Str × Json)) (k : Str) :
    (Json.removeField (.jobj fs) k).getField k = none := by
  simp [Json.removeField, Json.getField, lookup_filter_ne]

theorem removeField_of_none (k : Str) :
    ∀ fs : List (Str × Json), (Json.jobj fs).getField k = none →
      (Json.jobj fs).removeField k = .jobj fs
  | [], _ => rfl
  | (k2, v2) :: t, h => by
    by_cases h2 : k2 = k
    · exfalso
      subst h2
      simp only [Json.getField] at h
      rw [lookup_cons_eq k2 k2 v2 t rfl] at h
      exact Option.noConfusion h
    · have ht : (Json.jobj t).getField k = none := by
        simp only [Json.getField] at h ⊢
        rwa [lookup_cons_ne k k2 v2 t (fun e => h2 e.symm)] at h
      have ih := removeField_of_none k t ht
      simp only [Json.removeField] at ih ⊢
      simp only [List.filter_cons, beqs_false h2, Bool.not_false, if_true]
      rw [Json.jobj.injEq] at ih ⊢
      rw [ih]

theorem longReTest_shape (hchars dchars : Str) (hh : hchars.length = 44)
    (hhm : ∀ c ∈ hchars, b58Chars.contains c = true) (hd6 : 6 ≤ dchars.length)
    (hdm : ∀ c ∈ dchars, b58Chars.contains c = true) :
    ClientPeer4.longReTest ("did:peer:4zQm".toList ++ hchars ++ ':' :: 'z' :: dchars) = true := by
  have h13 : ("did:peer:4zQm".toList).length = 13 := rfl
  simp only [ClientPeer4.longReTest]
  rw [List.append_assoc, ← h13, take_len_append, drop_len_append, ← hh, take_len_append,
    drop_len_append]
  simp only [beqs_true rfl, Bool.true_and]
  rw [List.all_eq_true.mpr hhm, Bool.true_and]
  simp only [decide_eq_true hd6, Bool.true_and]
  exact List.all_eq_true.mpr hdm

theorem shortReTest_false_shape (hchars dchars : Str) (hh : hchars.length = 44) :
    ClientPeer4.shortReTest ("did:peer:4zQm".toList ++ hchars ++ ':' :: 'z' :: dchars) = false := by
  have h13 : ("did:peer:4zQm".toList).length = 13 := rfl
  simp only [ClientPeer4.shortReTest]
  rw [List.append_assoc, ← h13, drop_len_append]
  have hlen : (hchars ++ ':' :: 'z' :: dchars).length = 46 + dchars.length := by
    simp [hh]
    omega
  rw [hlen]
  have hne : ((46 + dchars.length : Nat) == 44) = false := beq_eq_false_iff_ne.mpr (by omega)
  simp [hne]

theorem decode_encode (sha : HashFn) (hsha : GoodSha sha) (fs : List (Str × Json)) :
    ClientPeer4.decode sha (ClientPeer4.encode sha (.jobj fs)) = .ok (.jobj fs) := by
  obtain ⟨hchars, dchars, henc, hhlen, hhmem, hdlen, hdmem, hhash, hdoc, hdec⟩ :=
    encode_decompose sha hsha (.jobj fs) (stringify_jobj_len fs)
  have h10 : ("did:peer:4".toList).length = 10 := rfl
  have hgrp : "did:peer:4zQm".toList ++ hchars ++ ':' :: 'z' :: dchars =
      "did:peer:4".toList ++ ('z' :: 'Q' :: 'm' :: (hchars ++ ':' :: 'z' :: dchars)) := by
    rw [List.append_assoc]
    rfl
  have hstart : strStarts "did:peer:4".toList
      ("did:peer:4zQm".toList ++ hchars ++ ':' :: 'z' :: dchars) = true := by
    rw [hgrp]
    exact strStarts_append _ _
  have hshort := shortReTest_false_shape hchars dchars hhlen
  have hlong := longReTest_shape hchars dchars hhlen hhmem hdlen hdmem
  have hdrop : ("did:peer:4zQm".toList ++ hchars ++ ':' :: 'z' :: dchars).drop 10 =
      'z' :: 'Q' :: 'm' :: (hchars ++ ':' :: 'z' :: dchars) := by
    rw [hgrp, ← h10, drop_len_append]
  have hrecat : 'z' :: 'Q' :: 'm' :: (hchars ++ ':' :: 'z' :: dchars) =
      ('z' :: 'Q' :: 'm' :: hchars) ++ ':' :: ('z' :: dchars) := by
    simp
  have hsplit : splitChar ':' ('z' :: 'Q' :: 'm' :: (hchars ++ ':' :: 'z' :: dchars)) =
      [('z' :: 'Q' :: 'm' :: hchars), ('z' :: dchars)] := by
    have hm1 : ∀ c ∈ ('z' :: 'Q' :: 'm' :: hchars), c ≠ ':' := by
      intro c hc
      simp only [List.mem_cons] at hc
      rcases hc with hc | hc | hc | hc
      · subst hc; decide
      · subst hc; decide
      · subst hc; decide
      · exact mem_b58_ne_colon c (hhmem c hc)
    have hm2 : ∀ c ∈ ('z' :: dchars), c ≠ ':' := by
      intro c hc
      simp only [List.mem_cons] at hc
      rcases hc with hc | hc
      · subst hc; decide
      · exact mem_b58_ne_colon c (hdmem c hc)
    rw [hrecat, splitChar_append ':' _ _ hm1, splitChar_no_sep ':' _ hm2]
  have hhz : hashDocument sha ('z' :: dchars) = 'z' :: 'Q' :: 'm' :: hchars := by
    rw [← hdoc]
    exact hhash
  rw [henc]
  simp only [ClientPeer4.decode, hstart, hshort, hlong, Bool.not_true, Bool.not_false,
    Bool.false_eq_true, if_false, if_true, hdrop, hsplit]
  simp only [List.getD, List.get?, Option.getD_some]
  rw [if_neg (by rw [hhz]; exact fun hne => hne rfl)]
  have hmb : fromMultibaseB58 ('z' :: dchars) = some (toMulticodecJson (.jobj fs)) := by
    simp only [fromMultibaseB58, List.drop_succ_cons, List.drop_zero]
    exact hdec
  rw [hmb]
  simp only [fromMulticodecJson_toMulticodecJson]

theorem goodSha_shaLen : GoodSha shaLen := by
  intro x
  constructor
  · simp [shaLen]
  · intro b hb
    simp only [shaLen, List.mem_cons] at hb
    rcases hb with hb | hb
    · subst hb
      exact Nat.mod_lt _ (by omega)
    · have hz := List.eq_of_mem_replicate hb
      subst hz
      decide

theorem goodSha_shaZero : GoodSha shaZero := by
  intro x
  constructor
  · simp [shaZero]
  · intro b hb
    have hz := List.eq_of_mem_replicate hb
    subst hz
    decide

theorem removeField_none_eq_self (d : Json) (k : Str) (h : d.getField k = none) :
    d.removeField k = d := by
  cases d with
  | jobj fs => exact removeField_of_none k fs h
  | jnull => rfl
  | jbool b => rfl
  | jnum n => rfl
  | jstr s => rfl
  | jarr xs => rfl

theorem serverEncode_eq_clientEncode (sha : HashFn) (d : Json)
    (h : d.getField "id".toList = none) :
    ServerPeer4.encode sha d = ClientPeer4.encode sha d := by
  unfold ServerPeer4.encode ClientPeer4.encode ServerPeer4.encodeDocument
    ClientPeer4.encodeDocument
  rw [removeField_none_eq_self d _ h]

/-- C1: the hash segment of tamperedDid belongs to a different document than
its document segment.  The client decode rejects it with IntegrityError before
parsing the embedded document, as the specification demands, but the server
resolve of part_000 performs no hash verification at all: it accepts the
identifier and returns the attacker-controlled field of the embedded document,
so resolve does not reject invalid identifiers. -/
theorem claim_C1 :
    ClientPeer4.decode shaLen tamperedDid = .error .integrityError ∧
    (ServerPeer4.resolve tamperedDid false).map
        (fun d => d.getField "attacker".toList) = .ok (some (.jstr "owned".toList)) := by
  constructor
  · decide
  · decide

/-- C2: for a document without an id field, decoding the long-form identifier
produced by encoding the document returns the document unchanged, whether the
identifier was produced by the client encode or by the server encode. -/
theorem claim_C2 (sha : HashFn) (hsha : GoodSha sha) (fs : List (Str × Json))
    (hid : (Json.jobj fs).getField "id".toList = none) :
    ClientPeer4.decode sha (ClientPeer4.encode sha (.jobj fs)) = .ok (.jobj fs) ∧
    ClientPeer4.decode sha (ServerPeer4.encode sha (.jobj fs)) = .ok (.jobj fs) := by
  refine ⟨decode_encode sha hsha fs, ?_⟩
  rw [serverEncode_eq_clientEncode sha _ hid]
  exact decode_encode sha hsha fs

theorem claim_C2_witness :
    ClientPeer4.decode shaLen (ClientPeer4.encode shaLen docB) = .ok docB ∧
    ClientPeer4.decode shaLen (ServerPeer4.encode shaLen docB) = .ok docB :=
  claim_C2 shaLen goodSha_shaLen [("a".toList, .jstr "bb".toList)] (by decide)

/-- C10: an input to unpackMessage that is object-like with a truthy type
field and a falsy ciphertext field is returned unchanged as a plaintext
message with metadata encrypted=false, authenticated=false,
anonymous_sender=false, and the decryption collaborator is not invoked. -/
theorem claim_C10 (m : Json) (hobj : isObjectLike m = true)
    (hty : truthy (m.getField "type".toList) = true)
    (hct : truthy (m.getField "ciphertext".toList) = false) :
    unpackMessageHead m = .plaintext m ⟨false, false, false⟩ := by
  unfold unpackMessageHead
  rw [hobj, hty, hct]
  rfl

theorem claim_C10_witness :
    unpackMessageHead (.jobj [("type".toList, .jstr "x".toList)]) =
      .plaintext (.jobj [("type".toList, .jstr "x".toList)]) ⟨false, false, false⟩ :=
  claim_C10 (.jobj [("type".toList, .jstr "x".toList)]) (by decide) (by decide) (by decide)

/-- C9: the fully qualified secret id anchored at the long form of a
document's identifier differs from the one anchored at the short form, and
the secret store lookup is an exact string match that returns none (never
throws) when a secret stored under one anchoring is looked up under the
other. -/
theorem claim_C9 (sha : HashFn) (hsha : GoodSha sha) (fs : List (Str × Json)) (frag : Str)
    (secret : Json) :
    fullKeyId (ClientPeer4.encode sha (.jobj fs)) frag ≠
      fullKeyId (ClientPeer4.encodeShort sha (.jobj fs)) frag ∧
    getSecret (addSecret [] (fullKeyId (ClientPeer4.encode sha (.jobj fs)) frag) secret)
      (fullKeyId (ClientPeer4.encodeShort sha (.jobj fs)) frag) = none ∧
    getSecret (addSecret [] (fullKeyId (ClientPeer4.encodeShort sha (.jobj fs)) frag) secret)
      (fullKeyId (ClientPeer4.encode sha (.jobj fs)) frag) = none := by
  obtain ⟨hchars, dchars, henc, hhlen, _, hdlen, _, hhash, _, _⟩ :=
    encode_decompose sha hsha (.jobj fs) (stringify_jobj_len fs)
  have hlenL : (ClientPeer4.encode sha (.jobj fs)).length = 59 + dchars.length := by
    rw [henc]
    simp only [List.length_append, List.length_cons, hhlen,
      show ("did:peer:4zQm".toList).length = 13 from rfl]
    omega
  have hlenS : (ClientPeer4.encodeShort sha (.jobj fs)).length = 57 := by
    unfold ClientPeer4.encodeShort
    rw [hhash]
    simp only [List.length_append, List.length_cons, hhlen,
      show ("did:peer:4".toList).length = 10 from rfl]
  have hKne : fullKeyId (ClientPeer4.encode sha (.jobj fs)) frag ≠
      fullKeyId (ClientPeer4.encodeShort sha (.jobj fs)) frag := by
    intro he
    have h1 := congrArg List.length he
    simp only [fullKeyId, List.length_append, hlenL, hlenS] at h1
    omega
  refine ⟨hKne, ?_, ?_⟩
  · simp only [getSecret, addSecret, setFieldList]
    rw [lookup_cons_ne _ _ _ _ (fun e => hKne e.symm)]
    rfl
  · simp only [getSecret, addSecret, setFieldList]
    rw [lookup_cons_ne _ _ _ _ hKne]
    rfl

theorem claim_C9_witness :
    fullKeyId (ClientPeer4.encode shaLen docB) "#key-1".toList ≠
      fullKeyId (ClientPeer4.encodeShort shaLen docB) "#key-1".toList ∧
    getSecret (addSecret [] (fullKeyId (ClientPeer4.encode shaLen docB) "#key-1".toList)
        (.jstr "s".toList))
      (fullKeyId (ClientPeer4.encodeShort shaLen docB) "#key-1".toList) = none ∧
    getSecret (addSecret [] (fullKeyId (ClientPeer4.encodeShort shaLen docB) "#key-1".toList)
        (.jstr "s".toList))
      (fullKeyId (ClientPeer4.encode shaLen docB) "#key-1".toList) = none :=
  claim_C9 shaLen goodSha_shaLen [("a".toList, .jstr "bb".toList)] "#key-1".toList
    (.jstr "s".toList)

theorem getField_removeField (d : Json) (k : Str) : (d.removeField k).getField k = none := by
  cases d with
  | jobj fs => exact getField_removeField_self fs k
  | jnull => rfl
  | jbool b => rfl
  | jnum n => rfl
  | jstr s => rfl
  | jarr xs => rfl

set_option maxRecDepth 8000 in
/-- C6: the client encode of src/src/lib/peer4.ts does not strip the id field:
encoding a document with an id yields a different identifier than encoding the
document with the id removed, and the document embedded in the identifier
still carries the id field, contradicting the claim for this cited encoder. -/
theorem claim_C6_counterexample :
    ClientPeer4.encode shaLen
        (.jobj [("a".toList, .jstr "bb".toList), ("id".toList, .jstr "x".toList)]) ≠
      ClientPeer4.encode shaLen
        ((Json.jobj [("a".toList, .jstr "bb".toList), ("id".toList, .jstr "x".toList)]).removeField
          "id".toList) ∧
    ClientPeer4.decode shaLen (ClientPeer4.encode shaLen
        (.jobj [("a".toList, .jstr "bb".toList), ("id".toList, .jstr "x".toList)])) =
      .ok (.jobj [("a".toList, .jstr "bb".toList), ("id".toList, .jstr "x".toList)]) := by
  constructor
  · decide
  · decide

/-- C6 (amended): the server encodeDocument of src/unnamed/part_000 does strip
the id field before serialization: the identifier produced for a document
equals the identifier produced for the document with its id removed, and the
document serialized into the identifier carries no id field. -/
theorem claim_C6 (sha : HashFn) (d : Json) :
    ServerPeer4.encode sha d = ServerPeer4.encode sha (d.removeField "id".toList) ∧
    ((d.removeField "id".toList).getField "id".toList = none) := by
  constructor
  · unfold ServerPeer4.encode ServerPeer4.encodeDocument
    rw [removeField_none_eq_self (d.removeField "id".toList) _ (getField_removeField d _)]
  · exact getField_removeField d _

theorem claim_C6_witness :
    ServerPeer4.encode shaLen
        (.jobj [("a".toList, .jstr "bb".toList), ("id".toList, .jstr "x".toList)]) =
      ServerPeer4.encode shaLen
        ((Json.jobj [("a".toList, .jstr "bb".toList), ("id".toList, .jstr "x".toList)]).removeField
          "id".toList) ∧
    ((Json.jobj [("a".toList, .jstr "bb".toList),
        ("id".toList, .jstr "x".toList)]).removeField "id".toList).getField "id".toList = none :=
  claim_C6 shaLen (.jobj [("a".toList, .jstr "bb".toList), ("id".toList, .jstr "x".toList)])

set_option maxRecDepth 8000 in
/-- C5: the client contextualizeDocument of src/src/lib/peer4.ts only injects
the id and a missing controller: on the example document the verification
method keeps its relative id "#key-1" and its generic type "Multikey", and
authentication[0] stays "#key-1", so no reference expansion or type mapping
happens in this cited module, contradicting the claim for it. -/
theorem claim_C5_counterexample :
    ClientPeer4.contextualizeDocument "did:ex".toList exDoc = .jobj [
      ("verificationMethod".toList, .jarr [.jobj [
        ("id".toList, .jstr "#key-1".toList),
        ("type".toList, .jstr "Multikey".toList),
        ("publicKeyMultibase".toList, .jstr (toMultikeyEd25519 [7, 8])),
        ("controller".toList, .jstr "did:ex".toList)]]),
      ("authentication".toList, .jarr [.jstr "#key-1".toList]),
      ("id".toList, .jstr "did:ex".toList)] := by
  decide

set_option maxRecDepth 8000 in
set_option maxHeartbeats 2000000 in
/-- C5 (amended): the server contextualization of src/unnamed/part_000 does
expand relative verification method ids to the document id, inject the
controller, map Multikey to the concrete suite derived from the multicodec
prefix of publicKeyMultibase (ed25519-pub to Ed25519VerificationKey2020,
x25519-pub to X25519KeyAgreementKey2020), and expand relative string
references; in particular contextualizing the example document once its id is
installed yields the fully expanded verification method id, the concrete
Ed25519 type, the controller, and the expanded authentication reference.  The
client module of src/src/lib/peer4.ts does none of this (see the
counterexample). -/
theorem claim_C5 :
    (∀ id : Str, ServerPeer4.contextualizeVm id (.jobj [
        ("id".toList, .jstr "#key-1".toList),
        ("type".toList, .jstr "Multikey".toList),
        ("publicKeyMultibase".toList, .jstr (toMultikeyEd25519 [7, 8]))]) = .jobj [
        ("id".toList, .jstr (id ++ "#key-1".toList)),
        ("type".toList, .jstr "Ed25519VerificationKey2020".toList),
        ("publicKeyMultibase".toList, .jstr (toMultikeyEd25519 [7, 8])),
        ("controller".toList, .jstr id)]) ∧
    (∀ id : Str, ServerPeer4.contextualizeVm id (.jobj [
        ("id".toList, .jstr "#key-2".toList),
        ("type".toList, .jstr "Multikey".toList),
        ("publicKeyMultibase".toList, .jstr (toMultikeyX25519 [9, 10]))]) = .jobj [
        ("id".toList, .jstr (id ++ "#key-2".toList)),
        ("type".toList, .jstr "X25519KeyAgreementKey2020".toList),
        ("publicKeyMultibase".toList, .jstr (toMultikeyX25519 [9, 10])),
        ("controller".toList, .jstr id)]) ∧
    (∀ (id s : Str), strStarts "#".toList s = true →
      ServerPeer4.contextualizeRef id (.jstr s) = .jstr (id ++ s)) ∧
    ServerPeer4.contextualizeDocument (.jobj [
      ("verificationMethod".toList, .jarr [.jobj [
        ("id".toList, .jstr "#key-1".toList),
        ("type".toList, .jstr "Multikey".toList),
        ("publicKeyMultibase".toList, .jstr (toMultikeyEd25519 [7, 8]))]]),
      ("authentication".toList, .jarr [.jstr "#key-1".toList]),
      ("id".toList, .jstr "did:ex".toList),
      ("alsoKnownAs".toList, .jarr [.jstr "did:ex:long".toList])]) = .jobj [
      ("verificationMethod".toList, .jarr [.jobj [
        ("id".toList, .jstr "did:ex#key-1".toList),
        ("type".toList, .jstr "Ed25519VerificationKey2020".toList),
        ("publicKeyMultibase".toList, .jstr (toMultikeyEd25519 [7, 8])),
        ("controller".toList, .jstr "did:ex".toList)]]),
      ("authentication".toList, .jarr [.jstr "did:ex#key-1".toList]),
      ("id".toList, .jstr "did:ex".toList),
      ("alsoKnownAs".toList, .jarr [.jstr "did:ex:long".toList])] := by
  refine ⟨fun i => rfl, fun i => rfl, ?_, by decide⟩
  intro id s hs
  show (if strStarts "#".toList s = true then Json.jstr (id ++ s) else Json.jstr s) =
    Json.jstr (id ++ s)
  rw [if_pos hs]

theorem claim_C5_witness :
    ServerPeer4.contextualizeRef "did:ex".toList (.jstr "#key-1".toList) =
      .jstr ("did:ex".toList ++ "#key-1".toList) ∧
    ServerPeer4.contextualizeVm "did:ex".toList (.jobj [
        ("id".toList, .jstr "#key-1".toList),
        ("type".toList, .jstr "Multikey".toList),
        ("publicKeyMultibase".toList, .jstr (toMultikeyEd25519 [7, 8]))]) = .jobj [
        ("id".toList, .jstr ("did:ex".toList ++ "#key-1".toList)),
        ("type".toList, .jstr "Ed25519VerificationKey2020".toList),
        ("publicKeyMultibase".toList, .jstr (toMultikeyEd25519 [7, 8])),
        ("controller".toList, .jstr "did:ex".toList)] :=
  ⟨claim_C5.2.2.1 "did:ex".toList "#key-1".toList (by decide), claim_C5.1 "did:ex".toList⟩

theorem getField_jobj (fs : List (Str × Json)) (k : Str) :
    (Json.jobj fs).getField k = fs.lookup k := rfl

theorem lookup_fold_aliases (r : Json) :
    ∀ (al : List Json) (m : DidMap) (k : Str), m.lookup k = some r →
      (al.foldl (fun m a => match a with
        | .jstr s => setFieldList s r m
        | _ => m) m).lookup k = some r := by
  intro al
  induction al with
  | nil => intro m k h; exact h
  | cons a t ih =>
    intro m k h
    simp only [List.foldl_cons]
    apply ih
    cases a with
    | jstr s =>
      by_cases hk : k = s
      · subst hk
        exact lookup_setFieldList_self k r m
      · rw [lookup_setFieldList_ne s k r hk m]
        exact h
    | jnull => exact h
    | jbool b => exact h
    | jnum n => exact h
    | jarr xs => exact h
    | jobj o => exact h

theorem lookup_fold_aliases_mem (r : Json) :
    ∀ (al : List Json) (m : DidMap) (k : Str), (Json.jstr k) ∈ al →
      (al.foldl (fun m a => match a with
        | .jstr s => setFieldList s r m
        | _ => m) m).lookup k = some r := by
  intro al
  induction al with
  | nil =>
    intro m k h
    exact absurd h (List.not_mem_nil _)
  | cons a t ih =>
    intro m k h
    simp only [List.foldl_cons]
    rcases List.mem_cons.mp h with h | h
    · rw [← h]
      exact lookup_fold_aliases r t _ k (lookup_setFieldList_self k r m)
    · exact ih _ k h

set_option maxRecDepth 8000 in
/-- C7: the client resolver of didcommService.ts does not populate its cache:
resolving a fresh long-form did:peer:4 identifier succeeds but returns the
cache unchanged (still empty), so a subsequent lookup of the same identifier
misses, contradicting the claim for this cited resolver. -/
theorem claim_C7_counterexample :
    ((clientResolverResolve shaLen [] (ClientPeer4.encode shaLen docB)).1.isSome = true) ∧
    (clientResolverResolve shaLen [] (ClientPeer4.encode shaLen docB)).2 = [] := by
  constructor
  · decide
  · decide

/-- C7 (amended): the server resolver does populate its cache on the first
successful resolution of a long-form did:peer:4 identifier, storing the
resolved document under the identifier itself and under every alsoKnownAs
alias before returning, so subsequent lookups of any of them hit. -/
theorem claim_C7 (st : DidMap) (did : Str) (r : Json) (aliases : List Json)
    (hmiss : st.lookup did = none)
    (hnk : strStarts "did:key:".toList did = false)
    (hp4 : strStarts "did:peer:4".toList did = true)
    (hz : containsSub ":z".toList did = true)
    (hres : ServerPeer4.resolve did true = .ok r)
    (hal : r.getField "alsoKnownAs".toList = some (.jarr aliases)) :
    (serverResolverResolve st did).1 = some r ∧
    ((serverResolverResolve st did).2).lookup did = some r ∧
    (∀ a : Str, (Json.jstr a) ∈ aliases →
      ((serverResolverResolve st did).2).lookup a = some r) := by
  have hred : serverResolverResolve st did =
      (some r, aliases.foldl (fun m a => match a with
        | .jstr s => setFieldList s r m
        | _ => m) (setFieldList did r st)) := by
    unfold serverResolverResolve
    simp only [hmiss, hnk, Bool.false_eq_true, if_false, hp4, hz, Bool.and_self, if_true,
      hres, hal]
  refine ⟨by rw [hred], ?_, ?_⟩
  · rw [hred]
    exact lookup_fold_aliases r aliases _ did (lookup_setFieldList_self did r st)
  · intro a ha
    rw [hred]
    exact lookup_fold_aliases_mem r aliases _ a ha

set_option maxRecDepth 8000 in
theorem claim_C7_witness :
    (serverResolverResolve [] (ClientPeer4.encode shaLen docB)).1 =
      some (.jobj [("a".toList, .jstr "bb".toList),
        ("id".toList, .jstr (ClientPeer4.encode shaLen docB)),
        ("alsoKnownAs".toList, .jarr [.jstr (ClientPeer4.encodeShort shaLen docB)])]) ∧
    ((serverResolverResolve [] (ClientPeer4.encode shaLen docB)).2).lookup
        (ClientPeer4.encode shaLen docB) =
      some (.jobj [("a".toList, .jstr "bb".toList),
        ("id".toList, .jstr (ClientPeer4.encode shaLen docB)),
        ("alsoKnownAs".toList, .jarr [.jstr (ClientPeer4.encodeShort shaLen docB)])]) ∧
    (∀ a : Str,
      (Json.jstr a) ∈ [Json.jstr (ClientPeer4.encodeShort shaLen docB)] →
      ((serverResolverResolve [] (ClientPeer4.encode shaLen docB)).2).lookup a =
        some (.jobj [("a".toList, .jstr "bb".toList),
          ("id".toList, .jstr (ClientPeer4.encode shaLen docB)),
          ("alsoKnownAs".toList, .jarr [.jstr (ClientPeer4.encodeShort shaLen docB)])])) :=
  claim_C7 [] (ClientPeer4.encode shaLen docB)
    (.jobj [("a".toList, .jstr "bb".toList),
      ("id".toList, .jstr (ClientPeer4.encode shaLen docB)),
      ("alsoKnownAs".toList, .jarr [.jstr (ClientPeer4.encodeShort shaLen docB)])])
    [Json.jstr (ClientPeer4.encodeShort shaLen docB)]
    (by decide) (by decide) (by decide) (by decide) (by decide) (by decide)

end DidcommDemo
